import Mathlib

/-!
# goDOM: a DOM-like query layer over a parsed HTML tree

Shallow embedding of `godom.go`.

* The parsed tree (`*html.Node` of `golang.org/x/net/html`) is a heap of node
  records addressed by natural numbers; a link field is `none` for Go `nil`.
* The wrappers (`*DOM`) live in a second heap, the wrapper store: a call of
  `newDOM` allocates a fresh cell, the two cache fields are `none` for a
  `nil` slice.  Every method reads the store and returns the store it leaves.
* A method that dereferences a `nil` pointer panics in Go; here it returns
  `Except.error Fault.nilDeref`.
* Loops over pointer chains and the recursive descent take a fuel bound;
  running out of it is `Fault.fuel`.
-/

namespace GoDOM

/-! ## The parsed tree -/

/-- Node kinds of `html.NodeType`, in declaration order. -/
inductive NodeType
  | ErrorNode
  | TextNode
  | DocumentNode
  | ElementNode
  | CommentNode
  | DoctypeNode
  | RawNode
  deriving DecidableEq, Repr

/-- An `html.Attribute`. -/
structure Attribute where
  Namespace : String
  Key : String
  Val : String
  deriving DecidableEq, Repr

/-- Address of a node in the tree heap. -/
abbrev Ptr := Nat

/-- An `html.Node`: five links, the kind (field `Type`), the data string and the
attributes. -/
structure Node where
  Parent : Option Ptr
  FirstChild : Option Ptr
  LastChild : Option Ptr
  PrevSibling : Option Ptr
  NextSibling : Option Ptr
  Type_ : NodeType
  Data : String
  Attr : List Attribute
  deriving DecidableEq, Repr

/-- The tree heap: the node stored at each address. -/
abbrev Heap := List Node

/-- Ways a call can fail to return. -/
inductive Fault
  | nilDeref
  | fuel
  | dangling
  deriving DecidableEq, Repr

deriving instance DecidableEq for Except

/-! ## The wrappers -/

/-- Address of a wrapper in the wrapper store. -/
abbrev Ref := Nat

/-- The `DOM` struct: the wrapped node and the two lazily filled caches. -/
structure DOM where
  node : Option Ptr
  flatElementList : Option (List Ref)
  flatNodeList : Option (List Ref)
  deriving DecidableEq, Repr

/-- The wrapper store. -/
abbrev Store := List DOM

/-- Reads the node record behind a non-nil node pointer. -/
def getN (h : Heap) (p : Ptr) : Except Fault Node :=
  match h[p]? with
  | some nd => Except.ok nd
  | none => Except.error Fault.dangling

/-- Reads the wrapper behind a non-nil wrapper pointer. -/
def getW (ws : Store) (d : Ref) : Except Fault DOM :=
  match ws[d]? with
  | some w => Except.ok w
  | none => Except.error Fault.dangling

/-- The access `d.node.f`: panics when `d.node` is nil. -/
def nodeOf (h : Heap) (ws : Store) (d : Ref) : Except Fault Node :=
  match getW ws d with
  | Except.error e => Except.error e
  | Except.ok w =>
    match w.node with
    | none => Except.error Fault.nilDeref
    | some p => getN h p

/-- The constructor `newDOM`: a fresh wrapper with both caches nil. -/
def newDOM (node : Option Ptr) (ws : Store) : Ref × Store :=
  (ws.length, ws ++ [⟨node, none, none⟩])

/-- The method `TagName`. -/
def TagName (h : Heap) (ws : Store) (d : Ref) : Except Fault String :=
  match nodeOf h ws d with
  | Except.error e => Except.error e
  | Except.ok nd =>
    if nd.Type_ = NodeType.TextNode then Except.ok "text"
    else if nd.Type_ = NodeType.DocumentNode then Except.ok "document"
    else if nd.Type_ = NodeType.DoctypeNode then Except.ok "doctype"
    else Except.ok nd.Data

/-- The loop `for node != nil` of `FirstElementChild` and `NextElementSibling`:
the first element node on the `NextSibling` chain from `node`. -/
def scanNext (h : Heap) : Nat → Option Ptr → Except Fault (Option Ptr)
  | _, none => Except.ok none
  | 0, some _ => Except.error Fault.fuel
  | n + 1, some p =>
    match getN h p with
    | Except.error e => Except.error e
    | Except.ok nd =>
      if nd.Type_ = NodeType.ElementNode then Except.ok (some p)
      else scanNext h n nd.NextSibling

/-- The loop `for node != nil` of `LastElementChild` and
`PreviousElementSibling`: the first element node on the `PrevSibling` chain. -/
def scanPrev (h : Heap) : Nat → Option Ptr → Except Fault (Option Ptr)
  | _, none => Except.ok none
  | 0, some _ => Except.error Fault.fuel
  | n + 1, some p =>
    match getN h p with
    | Except.error e => Except.error e
    | Except.ok nd =>
      if nd.Type_ = NodeType.ElementNode then Except.ok (some p)
      else scanPrev h n nd.PrevSibling

/-- The method `FirstElementChild`. -/
def FirstElementChild (h : Heap) (fuel : Nat) (d : Ref) (ws : Store) :
    Except Fault (Ref × Store) :=
  match getW ws d with
  | Except.error e => Except.error e
  | Except.ok w =>
    match w.node with
    | none => Except.ok (newDOM none ws)
    | some p =>
      match getN h p with
      | Except.error e => Except.error e
      | Except.ok nd =>
        match nd.FirstChild with
        | none => Except.ok (newDOM none ws)
        | some c =>
          match scanNext h fuel (some c) with
          | Except.error e => Except.error e
          | Except.ok r => Except.ok (newDOM r ws)

/-- The method `LastElementChild`. -/
def LastElementChild (h : Heap) (fuel : Nat) (d : Ref) (ws : Store) :
    Except Fault (Ref × Store) :=
  match getW ws d with
  | Except.error e => Except.error e
  | Except.ok w =>
    match w.node with
    | none => Except.ok (newDOM none ws)
    | some p =>
      match getN h p with
      | Except.error e => Except.error e
      | Except.ok nd =>
        match nd.LastChild with
        | none => Except.ok (newDOM none ws)
        | some c =>
          match scanPrev h fuel (some c) with
          | Except.error e => Except.error e
          | Except.ok r => Except.ok (newDOM r ws)

/-- The method `NextElementSibling`. -/
def NextElementSibling (h : Heap) (fuel : Nat) (d : Ref) (ws : Store) :
    Except Fault (Ref × Store) :=
  match getW ws d with
  | Except.error e => Except.error e
  | Except.ok w =>
    match w.node with
    | none => Except.ok (newDOM none ws)
    | some p =>
      match getN h p with
      | Except.error e => Except.error e
      | Except.ok nd =>
        match scanNext h fuel nd.NextSibling with
        | Except.error e => Except.error e
        | Except.ok r => Except.ok (newDOM r ws)

/-- The method `PreviousElementSibling`. -/
def PreviousElementSibling (h : Heap) (fuel : Nat) (d : Ref) (ws : Store) :
    Except Fault (Ref × Store) :=
  match getW ws d with
  | Except.error e => Except.error e
  | Except.ok w =>
    match w.node with
    | none => Except.ok (newDOM none ws)
    | some p =>
      match getN h p with
      | Except.error e => Except.error e
      | Except.ok nd =>
        match scanPrev h fuel nd.PrevSibling with
        | Except.error e => Except.error e
        | Except.ok r => Except.ok (newDOM r ws)

/-- The method `isElementNode`. -/
def isElementNode (h : Heap) (ws : Store) (d : Ref) : Except Fault Bool :=
  match getW ws d with
  | Except.error e => Except.error e
  | Except.ok w =>
    match w.node with
    | none => Except.ok false
    | some p =>
      match getN h p with
      | Except.error e => Except.error e
      | Except.ok nd => Except.ok (decide (nd.Type_ = NodeType.ElementNode))

/-- The loop `for child.NextSibling != nil` of `childNodes`. -/
def childNodesLoop (h : Heap) : Nat → Ptr → List Ref → Store →
    Except Fault (List Ref × Store)
  | 0, _, _, _ => Except.error Fault.fuel
  | n + 1, child, children, ws =>
    match getN h child with
    | Except.error e => Except.error e
    | Except.ok nd =>
      match nd.NextSibling with
      | none => Except.ok (children, ws)
      | some next =>
        childNodesLoop h n next (children ++ [(newDOM (some next) ws).1])
          (newDOM (some next) ws).2

/-- The method `childNodes`. -/
def childNodes (h : Heap) (fuel : Nat) (d : Ref) (ws : Store) :
    Except Fault (List Ref × Store) :=
  match nodeOf h ws d with
  | Except.error e => Except.error e
  | Except.ok nd =>
    match nd.FirstChild with
    | none => Except.ok ([], ws)
    | some child =>
      childNodesLoop h fuel child [(newDOM (some child) ws).1]
        (newDOM (some child) ws).2

/-- The loop shape `for _, node := range nodes { if p(node) { out = append(out,
node) } }` shared by `Children`, `getTextNodes`, `getFlatElementList`,
`GetElementsByTagName`, `GetElementsByClassName` and `Text`. -/
def selectLoop (p : Ref → Except Fault Bool) : List Ref → List Ref →
    Except Fault (List Ref)
  | [], out => Except.ok out
  | node :: nodes, out =>
    match p node with
    | Except.error e => Except.error e
    | Except.ok true => selectLoop p nodes (out ++ [node])
    | Except.ok false => selectLoop p nodes out

/-- The method `Children`. -/
def Children (h : Heap) (fuel : Nat) (d : Ref) (ws : Store) :
    Except Fault (List Ref × Store) :=
  match childNodes h fuel d ws with
  | Except.error e => Except.error e
  | Except.ok (nodes, ws1) =>
    match selectLoop (isElementNode h ws1) nodes [] with
    | Except.error e => Except.error e
    | Except.ok children => Except.ok (children, ws1)

/-- The method `ChildElementCount`. -/
def ChildElementCount (h : Heap) (fuel : Nat) (d : Ref) (ws : Store) :
    Except Fault (Nat × Store) :=
  match Children h fuel d ws with
  | Except.error e => Except.error e
  | Except.ok (children, ws1) => Except.ok (children.length, ws1)

/-! ## Attributes -/

/-- A Go `map[string]string`: an association list with one entry per key. -/
abbrev StrMap := List (String × String)

/-- The assignment `m[k] = v`. -/
def mapAssign (m : StrMap) (k v : String) : StrMap :=
  (k, v) :: m.filter (fun e => e.1 != k)

/-- The lookup `v, ok := m[k]`. -/
def mapIndex (m : StrMap) (k : String) : Option String :=
  (m.find? (fun e => e.1 == k)).map Prod.snd

/-- The method `Attributes`. -/
def Attributes (h : Heap) (ws : Store) (d : Ref) : Except Fault StrMap :=
  match nodeOf h ws d with
  | Except.error e => Except.error e
  | Except.ok nd => Except.ok (nd.Attr.foldl (fun m a => mapAssign m a.Key a.Val) [])

/-- The method `getAttribute`. -/
def getAttribute (h : Heap) (ws : Store) (d : Ref) (key : String) :
    Except Fault String :=
  match Attributes h ws d with
  | Except.error e => Except.error e
  | Except.ok attributes =>
    match mapIndex attributes key with
    | none => Except.ok ""
    | some val => Except.ok val

/-- The method `ClassName`. -/
def ClassName (h : Heap) (ws : Store) (d : Ref) : Except Fault String :=
  getAttribute h ws d "class"

/-- Pieces of a character list between the occurrences of `sep`. -/
def splitChars (sep : Char) : List Char → List (List Char)
  | [] => [[]]
  | c :: cs =>
    if c = sep then [] :: splitChars sep cs
    else
      match splitChars sep cs with
      | [] => [[c]]
      | w :: rest => (c :: w) :: rest

/-- The call `strings.Split(s, " ")`. -/
def splitSpace (s : String) : List String :=
  (splitChars ' ' s.data).map String.mk

/-- The method `ClassList`. -/
def ClassList (h : Heap) (ws : Store) (d : Ref) : Except Fault (List String) :=
  match ClassName h ws d with
  | Except.error e => Except.error e
  | Except.ok s => Except.ok (splitSpace s)

/-- The method `Id`. -/
def Id (h : Heap) (ws : Store) (d : Ref) : Except Fault String :=
  getAttribute h ws d "id"

/-- The method `HasAttribute`. -/
def HasAttribute (h : Heap) (ws : Store) (d : Ref) (key : String) :
    Except Fault Bool :=
  match Attributes h ws d with
  | Except.error e => Except.error e
  | Except.ok attributes => Except.ok (mapIndex attributes key).isSome

/-- The method `HasAttributes`. -/
def HasAttributes (h : Heap) (ws : Store) (d : Ref) : Except Fault Bool :=
  match Attributes h ws d with
  | Except.error e => Except.error e
  | Except.ok attributes => Except.ok (decide (attributes.length > 0))

/-! ## Flattened lists and their caches -/

/-- The assignment `d.flatNodeList = l`. -/
def setFlatNodeList (ws : Store) (d : Ref) (l : List Ref) : Store :=
  match ws[d]? with
  | some w => ws.set d { w with flatNodeList := some l }
  | none => ws

/-- The assignment `d.flatElementList = l`. -/
def setFlatElementList (ws : Store) (d : Ref) (l : List Ref) : Store :=
  match ws[d]? with
  | some w => ws.set d { w with flatElementList := some l }
  | none => ws

/-- The loop of `getFlatNodeList` over the children, `descend` being the
recursive call `child.getFlatNodeList(false)`. -/
def flatLoop (descend : Ref → Store → Except Fault (List Ref × Store)) :
    List Ref → List Ref → Store → Except Fault (List Ref × Store)
  | [], flatNodeList, ws => Except.ok (flatNodeList, ws)
  | child :: children, flatNodeList, ws =>
    match descend child ws with
    | Except.error e => Except.error e
    | Except.ok (l, ws1) => flatLoop descend children (flatNodeList ++ l) ws1

/-- The method `getFlatNodeList`; the fuel bounds the depth of the descent and
the length of every child chain. -/
def getFlatNodeList (h : Heap) : Nat → Bool → Ref → Store →
    Except Fault (List Ref × Store)
  | 0, _, _, _ => Except.error Fault.fuel
  | n + 1, setCache, d, ws =>
    match getW ws d with
    | Except.error e => Except.error e
    | Except.ok w =>
      match w.flatNodeList with
      | some l => Except.ok (l, ws)
      | none =>
        match nodeOf h ws d with
        | Except.error e => Except.error e
        | Except.ok nd =>
          let walked : Except Fault (List Ref × Store) :=
            match nd.FirstChild with
            | none => Except.ok ([d], ws)
            | some _ =>
              match childNodes h (n + 1) d ws with
              | Except.error e => Except.error e
              | Except.ok (children, ws1) =>
                flatLoop (getFlatNodeList h n false) children [d] ws1
          match walked with
          | Except.error e => Except.error e
          | Except.ok (flatNodeList, ws2) =>
            if setCache then Except.ok (flatNodeList, setFlatNodeList ws2 d flatNodeList)
            else Except.ok (flatNodeList, ws2)

/-- The method `getFlatElementList`. -/
def getFlatElementList (h : Heap) (fuel : Nat) (setCache : Bool) (d : Ref)
    (ws : Store) : Except Fault (List Ref × Store) :=
  match getW ws d with
  | Except.error e => Except.error e
  | Except.ok w =>
    match w.flatElementList with
    | some l => Except.ok (l, ws)
    | none =>
      match getFlatNodeList h fuel true d ws with
      | Except.error e => Except.error e
      | Except.ok (nodes, ws1) =>
        match selectLoop (isElementNode h ws1) nodes [] with
        | Except.error e => Except.error e
        | Except.ok elements =>
          if setCache then Except.ok (elements, setFlatElementList ws1 d elements)
          else Except.ok (elements, ws1)

/-! ## Searches -/

/-- The loop of `GetElementById`: the first node whose `Id()` is `id`. -/
def findIdLoop (h : Heap) (ws : Store) (id : String) : List Ref →
    Except Fault (Option Ref)
  | [] => Except.ok none
  | node :: nodes =>
    match Id h ws node with
    | Except.error e => Except.error e
    | Except.ok s => if s = id then Except.ok (some node) else findIdLoop h ws id nodes

/-- The method `GetElementById`; `none` is the nil result. -/
def GetElementById (h : Heap) (fuel : Nat) (d : Ref) (id : String) (ws : Store) :
    Except Fault (Option Ref × Store) :=
  match getFlatElementList h fuel true d ws with
  | Except.error e => Except.error e
  | Except.ok (nodes, ws1) =>
    match findIdLoop h ws1 id nodes with
    | Except.error e => Except.error e
    | Except.ok r => Except.ok (r, ws1)

/-- The test `node.TagName() == tag`. -/
def tagIs (h : Heap) (ws : Store) (tag : String) (node : Ref) : Except Fault Bool :=
  match TagName h ws node with
  | Except.error e => Except.error e
  | Except.ok s => Except.ok (decide (s = tag))

/-- The method `GetElementsByTagName`. -/
def GetElementsByTagName (h : Heap) (fuel : Nat) (d : Ref) (tag : String)
    (ws : Store) : Except Fault (List Ref × Store) :=
  match getFlatElementList h fuel true d ws with
  | Except.error e => Except.error e
  | Except.ok (nodes, ws1) =>
    match selectLoop (tagIs h ws1 tag) nodes [] with
    | Except.error e => Except.error e
    | Except.ok elements => Except.ok (elements, ws1)

/-- The test `slices.Contains(node.ClassList(), class)`. -/
def classIn (h : Heap) (ws : Store) (cls : String) (node : Ref) : Except Fault Bool :=
  match ClassList h ws node with
  | Except.error e => Except.error e
  | Except.ok l => Except.ok (decide (cls ∈ l))

/-- The method `GetElementsByClassName`. -/
def GetElementsByClassName (h : Heap) (fuel : Nat) (d : Ref) (cls : String)
    (ws : Store) : Except Fault (List Ref × Store) :=
  match getFlatElementList h fuel true d ws with
  | Except.error e => Except.error e
  | Except.ok (nodes, ws1) =>
    match selectLoop (classIn h ws1 cls) nodes [] with
    | Except.error e => Except.error e
    | Except.ok elements => Except.ok (elements, ws1)

/-! ## Text -/

/-- The predicate `unicode.IsSpace`. -/
def isSpace (c : Char) : Bool :=
  c.val = 0x09 || c.val = 0x0A || c.val = 0x0B || c.val = 0x0C || c.val = 0x0D ||
  c.val = 0x20 || c.val = 0x85 || c.val = 0xA0 || c.val = 0x1680 ||
  (0x2000 ≤ c.val && c.val ≤ 0x200A) || c.val = 0x2028 || c.val = 0x2029 ||
  c.val = 0x202F || c.val = 0x205F || c.val = 0x3000

/-- The call `strings.TrimSpace`. -/
def TrimSpace (s : String) : String :=
  String.mk (((s.data.dropWhile isSpace).reverse.dropWhile isSpace).reverse)

/-- The method `getTextNodes`. -/
def getTextNodes (h : Heap) (fuel : Nat) (d : Ref) (ws : Store) :
    Except Fault (List Ref × Store) :=
  match childNodes h fuel d ws with
  | Except.error e => Except.error e
  | Except.ok (nodes, ws1) =>
    if nodes.length = 0 then Except.ok ([], ws1)
    else
      match selectLoop (tagIs h ws1 "text") nodes [] with
      | Except.error e => Except.error e
      | Except.ok children => Except.ok (children, ws1)

/-- The loop of `Text` writing `node.node.Data` and a space for each node. -/
def writeLoop (h : Heap) (ws : Store) : List Ref → String → Except Fault String
  | [], sb => Except.ok sb
  | node :: nodes, sb =>
    match nodeOf h ws node with
    | Except.error e => Except.error e
    | Except.ok nd => writeLoop h ws nodes (sb ++ (nd.Data ++ " "))

/-- The method `Text`. -/
def Text (h : Heap) (fuel : Nat) (d : Ref) (full : Bool) (ws : Store) :
    Except Fault (String × Store) :=
  let picked : Except Fault (List Ref × Store) :=
    if !full then getTextNodes h fuel d ws
    else
      match getFlatNodeList h fuel true d ws with
      | Except.error e => Except.error e
      | Except.ok (flat, ws1) =>
        match selectLoop (tagIs h ws1 "text") flat [] with
        | Except.error e => Except.error e
        | Except.ok nodes => Except.ok (nodes, ws1)
  match picked with
  | Except.error e => Except.error e
  | Except.ok (nodes, ws1) =>
    match writeLoop h ws1 nodes "" with
    | Except.error e => Except.error e
    | Except.ok sb => Except.ok (TrimSpace sb, ws1)

/-- The method `Parent`. -/
def Parent (h : Heap) (d : Ref) (ws : Store) : Except Fault (Ref × Store) :=
  match nodeOf h ws d with
  | Except.error e => Except.error e
  | Except.ok nd => Except.ok (newDOM nd.Parent ws)

/-! ## Well-formed trees

A forest is the shape of a sibling list together with the subtrees below each
sibling: `cons p kids rest` is the node at address `p`, its children `kids`,
and its following siblings `rest`. -/

/-- Shape of a sibling list with the subtrees hanging below it. -/
inductive Forest
  | nil
  | cons (p : Ptr) (kids : Forest) (rest : Forest)
  deriving DecidableEq, Repr

/-- Address of the first sibling. -/
def Forest.first : Forest → Option Ptr
  | Forest.nil => none
  | Forest.cons p _ _ => some p

/-- Address of the last sibling. -/
def Forest.last : Forest → Option Ptr
  | Forest.nil => none
  | Forest.cons p _ r =>
    match r.last with
    | some q => some q
    | none => some p

/-- Addresses of the siblings, in order. -/
def Forest.roots : Forest → List Ptr
  | Forest.nil => []
  | Forest.cons p _ r => p :: r.roots

/-- Addresses of all nodes, in document (pre-order, depth-first) order. -/
def Forest.preorder : Forest → List Ptr
  | Forest.nil => []
  | Forest.cons p k r => p :: (k.preorder ++ r.preorder)

/-- Number of nodes. -/
def Forest.size : Forest → Nat
  | Forest.nil => 0
  | Forest.cons _ k r => 1 + k.size + r.size

/-- The five links of every node of the forest are as the shape says: the
siblings hang under `parent`, the first one has `prev` before it. -/
def linked (h : Heap) : Option Ptr → Option Ptr → Forest → Bool
  | _, _, Forest.nil => true
  | parent, prev, Forest.cons p k r =>
    (match h[p]? with
      | none => false
      | some nd =>
        decide (nd.Parent = parent) && decide (nd.PrevSibling = prev) &&
        decide (nd.NextSibling = r.first) && decide (nd.FirstChild = k.first) &&
        decide (nd.LastChild = k.last)) &&
    linked h (some p) none k && linked h parent (some p) r

/-- The node at `p` is the root of a well-formed subtree whose children are
`kids`: child links as the shape says, no address used twice. -/
def treeAt (h : Heap) (p : Ptr) (kids : Forest) : Bool :=
  (match h[p]? with
    | none => false
    | some nd => decide (nd.FirstChild = kids.first) && decide (nd.LastChild = kids.last)) &&
  linked h (some p) none kids && decide (p :: kids.preorder).Nodup

/-- The node at `a` is an element node. -/
def isElem (h : Heap) (a : Ptr) : Bool :=
  match h[a]? with
  | some nd => decide (nd.Type_ = NodeType.ElementNode)
  | none => false

/-- The node at `a` is a text node. -/
def isText (h : Heap) (a : Ptr) : Bool :=
  match h[a]? with
  | some nd => decide (nd.Type_ = NodeType.TextNode)
  | none => false

/-- The node a wrapper wraps: `none` for no wrapper at `r`, `some none` for the
absent-node wrapper. -/
def nodeAt (ws : Store) (r : Ref) : Option (Option Ptr) :=
  (ws[r]?).map DOM.node

/-- The fresh wrappers of a list of nodes. -/
def freshCells (l : List Ptr) : Store :=
  l.map (fun a => (⟨some a, none, none⟩ : DOM))

/-- The wrapper at `d` wraps the node at `p`, and each of its caches that is
set lists wrappers of the nodes (for the element cache: the element nodes) of
the subtree of `p` in pre-order.  A fresh wrapper satisfies it, and the
methods keep it. -/
def cachesSound (h : Heap) (ws : Store) (d : Ref) (p : Ptr) (k : Forest) : Bool :=
  match ws[d]? with
  | none => false
  | some w =>
    decide (w.node = some p) &&
    (match w.flatNodeList with
      | none => true
      | some l =>
        decide (l.map (nodeAt ws) = (p :: k.preorder).map (fun a => some (some a)))) &&
    (match w.flatElementList with
      | none => true
      | some l =>
        decide (l.map (nodeAt ws) =
          ((p :: k.preorder).filter (isElem h)).map (fun a => some (some a))))

/-! ## Joining strings -/

/-- Concatenation of a list of pieces with `sep` between neighbours. -/
def joinChars (sep : Char) : List (List Char) → List Char
  | [] => []
  | [w] => w
  | w :: v :: rest => w ++ sep :: joinChars sep (v :: rest)

/-- The call `strings.Join(l, " ")`. -/
def joinSpace (l : List String) : String :=
  String.mk (joinChars ' ' (l.map String.data))

/-- The children of a sibling list, each with the forest below it. -/
def Forest.trees : Forest → List (Ptr × Forest)
  | Forest.nil => []
  | Forest.cons p k r => (p, k) :: r.trees

/-- The element cache of the wrapper at `d` is set only if its node cache is
set.  This holds of every wrapper the methods can produce: the only assignment
of `flatElementList` (in `getFlatElementList`) follows the call
`d.getFlatNodeList(true)`, which leaves the node cache set. -/
def cachesOrdered (ws : Store) (d : Ref) : Bool :=
  match ws[d]? with
  | none => true
  | some w => w.flatElementList.isNone || w.flatNodeList.isSome

/-! ## A second sample document

The tree of `<ul class="a" id="x" class="b"><li></li>one<!--c--><li></li>two</ul>`:
two element children separated by a text node and a comment, and an attribute
list with a repeated key. -/

/-- The heap of the second sample document; address 0 is the `ul`. -/
def listHeap : Heap :=
  [ ⟨none, some 1, some 5, none, none, NodeType.ElementNode, "ul",
      [⟨"", "class", "a"⟩, ⟨"", "id", "x"⟩, ⟨"", "class", "b"⟩]⟩,
    ⟨some 0, none, none, none, some 2, NodeType.ElementNode, "li", []⟩,
    ⟨some 0, none, none, some 1, some 3, NodeType.TextNode, "one", []⟩,
    ⟨some 0, none, none, some 2, some 4, NodeType.CommentNode, "c", []⟩,
    ⟨some 0, none, none, some 3, some 5, NodeType.ElementNode, "li", []⟩,
    ⟨some 0, none, none, some 4, none, NodeType.TextNode, "two", []⟩ ]

/-- Children of the `ul` of the second sample document. -/
def listKids : Forest :=
  Forest.cons 1 Forest.nil (Forest.cons 2 Forest.nil (Forest.cons 3 Forest.nil
    (Forest.cons 4 Forest.nil (Forest.cons 5 Forest.nil Forest.nil))))

/-- The store that `Text(true)` leaves when called on a fresh wrapper of the
`div` of the first sample document: the node cache of the wrapper is set, its
element cache is not. -/
def storeAfterText : Store :=
  [⟨some 5, none, some [0, 1, 2]⟩, ⟨some 6, none, none⟩, ⟨some 7, none, none⟩]

/-! ## Chains of accessor calls -/

/-- One of the four element accessors. -/
inductive Step
  | firstElementChild
  | lastElementChild
  | nextElementSibling
  | previousElementSibling
  deriving DecidableEq, Repr

/-- The call of one accessor on a wrapper. -/
def Step.run (h : Heap) (fuel : Nat) : Step → Ref → Store → Except Fault (Ref × Store)
  | Step.firstElementChild, d, ws => FirstElementChild h fuel d ws
  | Step.lastElementChild, d, ws => LastElementChild h fuel d ws
  | Step.nextElementSibling, d, ws => NextElementSibling h fuel d ws
  | Step.previousElementSibling, d, ws => PreviousElementSibling h fuel d ws

/-- A method chain `d.s1().s2()...`: each accessor is called on the wrapper the
previous one returned. -/
def runChain (h : Heap) (fuel : Nat) : List Step → Ref → Store →
    Except Fault (Ref × Store)
  | [], d, ws => Except.ok (d, ws)
  | s :: rest, d, ws =>
    match s.run h fuel d ws with
    | Except.error e => Except.error e
    | Except.ok (r, ws1) => runChain h fuel rest r ws1

/-! ## The text the specification describes -/

/-- The data string of the node at `a`. -/
def dataAt (h : Heap) (a : Ptr) : String :=
  match h[a]? with
  | some nd => nd.Data
  | none => ""

/-- The specification's text of a list of nodes: the trimmed concatenation of
the data of its text-type nodes, each followed by one space. -/
def specText (h : Heap) (l : List Ptr) : String :=
  TrimSpace (String.join ((l.filter (isText h)).map (fun a => dataAt h a ++ " ")))

/-! ## A sample document

The tree of
`<html><head></head><body class="main">hello<div id="a" class="x y"><text>deep</text></div><!--text--></body></html>`. -/

/-- The heap of the sample document; address 0 is the document node. -/
def sampleHeap : Heap :=
  [ ⟨none, some 1, some 1, none, none, NodeType.DocumentNode, "", []⟩,
    ⟨some 0, some 2, some 3, none, none, NodeType.ElementNode, "html", []⟩,
    ⟨some 1, none, none, none, some 3, NodeType.ElementNode, "head", []⟩,
    ⟨some 1, some 4, some 8, some 2, none, NodeType.ElementNode, "body",
      [⟨"", "class", "main"⟩]⟩,
    ⟨some 3, none, none, none, some 5, NodeType.TextNode, "hello", []⟩,
    ⟨some 3, some 6, some 6, some 4, some 8, NodeType.ElementNode, "div",
      [⟨"", "id", "a"⟩, ⟨"", "class", "x y"⟩]⟩,
    ⟨some 5, some 7, some 7, none, none, NodeType.ElementNode, "text", []⟩,
    ⟨some 6, none, none, none, none, NodeType.TextNode, "deep", []⟩,
    ⟨some 3, none, none, some 5, none, NodeType.CommentNode, "text", []⟩ ]

/-- Children of the `div` of the sample document, with their subtrees. -/
def sampleDivKids : Forest :=
  Forest.cons 6 (Forest.cons 7 Forest.nil Forest.nil) Forest.nil

/-- Children of the `body` of the sample document, with their subtrees. -/
def sampleBodyKids : Forest :=
  Forest.cons 4 Forest.nil (Forest.cons 5 sampleDivKids (Forest.cons 8 Forest.nil Forest.nil))

/-- Children of the document node of the sample document, with their subtrees. -/
def sampleDocKids : Forest :=
  Forest.cons 1 (Forest.cons 2 Forest.nil (Forest.cons 3 sampleBodyKids Forest.nil)) Forest.nil

/-- A store holding one fresh wrapper of the node at `p`. -/
def storeOf (p : Ptr) : Store := [⟨some p, none, none⟩]

/-- A store holding one wrapper of the absent node. -/
def absentStore : Store := [⟨none, none, none⟩]

/-! ## Sibling chains -/

theorem getLast_cons_some {α : Type} (b : α) (l : List α) :
    ∃ q, (b :: l).getLast? = some q := by
  induction l generalizing b with
  | nil => exact ⟨b, rfl⟩
  | cons c l ih =>
    obtain ⟨q, hq⟩ := ih c
    exact ⟨q, by rw [List.getLast?_cons_cons]; exact hq⟩

theorem Forest.first_eq_head (f : Forest) : f.first = f.roots.head? := by
  cases f <;> rfl

theorem Forest.last_eq_getLast (f : Forest) : f.last = f.roots.getLast? := by
  induction f with
  | nil => rfl
  | cons p k r _ ihr =>
    simp only [Forest.last, Forest.roots, ihr]
    cases hr : r.roots with
    | nil => simp
    | cons b l =>
      obtain ⟨q, hq⟩ := getLast_cons_some b l
      rw [List.getLast?_cons_cons, hq]

theorem Forest.roots_length_le (f : Forest) : f.roots.length ≤ f.size := by
  induction f with
  | nil => simp [Forest.roots, Forest.size]
  | cons p k r _ ihr => simp [Forest.roots, Forest.size]; omega

theorem Forest.preorder_length (f : Forest) : f.preorder.length = f.size := by
  induction f with
  | nil => simp [Forest.preorder, Forest.size]
  | cons p k r ihk ihr => simp [Forest.preorder, Forest.size, ihk, ihr]; omega

theorem Forest.roots_sub_preorder (f : Forest) : ∀ a ∈ f.roots, a ∈ f.preorder := by
  induction f with
  | nil => simp [Forest.roots]
  | cons p k r _ ihr =>
    intro a ha
    simp only [Forest.roots, List.mem_cons] at ha
    simp only [Forest.preorder, List.mem_cons, List.mem_append]
    rcases ha with ha | ha
    · exact Or.inl ha
    · exact Or.inr (Or.inr (ihr a ha))

/-- Unfolding of `linked` at a non-empty forest. -/
theorem linked_cons {h : Heap} {parent prev : Option Ptr} {p : Ptr} {k r : Forest}
    (hl : linked h parent prev (Forest.cons p k r) = true) :
    (∃ nd, h[p]? = some nd ∧ nd.Parent = parent ∧ nd.PrevSibling = prev ∧
      nd.NextSibling = r.first ∧ nd.FirstChild = k.first ∧ nd.LastChild = k.last) ∧
    linked h (some p) none k = true ∧ linked h parent (some p) r = true := by
  simp only [linked, Bool.and_eq_true] at hl
  obtain ⟨⟨hnd, hk⟩, hr⟩ := hl
  refine ⟨?_, hk, hr⟩
  cases hp : h[p]? with
  | none => simp [hp] at hnd
  | some nd =>
    simp only [hp, Bool.and_eq_true, decide_eq_true_eq] at hnd
    obtain ⟨⟨⟨⟨h1, h2⟩, h3⟩, h4⟩, h5⟩ := hnd
    exact ⟨nd, rfl, h1, h2, h3, h4, h5⟩

/-- Every node of a linked forest is in the heap. -/
theorem linked_mem {h : Heap} : ∀ (f : Forest) (parent prev : Option Ptr),
    linked h parent prev f = true → ∀ a ∈ f.preorder, ∃ nd, h[a]? = some nd := by
  intro f
  induction f with
  | nil => intro _ _ _ a ha; simp [Forest.preorder] at ha
  | cons p k r ihk ihr =>
    intro parent prev hl a ha
    obtain ⟨⟨nd, hnd, _⟩, hk, hr⟩ := linked_cons hl
    simp only [Forest.preorder, List.mem_cons, List.mem_append] at ha
    rcases ha with ha | ha | ha
    · exact ⟨nd, ha ▸ hnd⟩
    · exact ihk _ _ hk a ha
    · exact ihr _ _ hr a ha

/-- The links of a sibling in the middle of a linked sibling list. -/
theorem linked_at {h : Heap} : ∀ (f : Forest) (parent prev : Option Ptr)
    (xs : List Ptr) (a : Ptr) (ys : List Ptr),
    linked h parent prev f = true → f.roots = xs ++ a :: ys →
    ∃ nd, h[a]? = some nd ∧ nd.Parent = parent ∧
      nd.PrevSibling = (match xs.getLast? with | some b => some b | none => prev) ∧
      nd.NextSibling = ys.head? := by
  intro f
  induction f with
  | nil => intro _ _ xs a ys _ hr; simp [Forest.roots] at hr
  | cons p k r _ ihr =>
    intro parent prev xs a ys hl hr
    obtain ⟨⟨nd, hnd, h1, h2, h3, _, _⟩, _, hlr⟩ := linked_cons hl
    cases xs with
    | nil =>
      simp only [Forest.roots, List.nil_append, List.cons.injEq] at hr
      obtain ⟨hpa, hys⟩ := hr
      subst hpa
      refine ⟨nd, hnd, h1, ?_, ?_⟩
      · simpa using h2
      · rw [h3, Forest.first_eq_head, hys]
    | cons x xs1 =>
      simp only [Forest.roots, List.cons_append, List.cons.injEq] at hr
      obtain ⟨hpx, hrr⟩ := hr
      subst hpx
      obtain ⟨nd1, hnd1, g1, g2, g3⟩ := ihr parent (some p) xs1 a ys hlr hrr
      refine ⟨nd1, hnd1, g1, ?_, g3⟩
      rw [g2]
      cases xs1 with
      | nil => simp
      | cons b l =>
        obtain ⟨q, hq⟩ := getLast_cons_some b l
        rw [List.getLast?_cons_cons, hq]

theorem getN_of_some {h : Heap} {p : Ptr} {nd : Node} (hp : h[p]? = some nd) :
    getN h p = Except.ok nd := by
  simp [getN, hp]

theorem isElem_of_some {h : Heap} {p : Ptr} {nd : Node} (hp : h[p]? = some nd) :
    isElem h p = decide (nd.Type_ = NodeType.ElementNode) := by
  simp [isElem, hp]

/-- The forward scan over a tail of a linked sibling list finds its first
element node. -/
theorem scanNext_list {h : Heap} {f : Forest} {parent prev : Option Ptr}
    (hl : linked h parent prev f = true) :
    ∀ (l xs : List Ptr) (fuel : Nat), f.roots = xs ++ l → l.length ≤ fuel →
      scanNext h fuel l.head? = Except.ok (l.find? (isElem h)) := by
  intro l
  induction l with
  | nil => intro xs fuel _ _; cases fuel <;> simp [scanNext]
  | cons a ys ih =>
    intro xs fuel hr hf
    obtain ⟨nd, hnd, _, _, hnext⟩ := linked_at f parent prev xs a ys hl hr
    cases fuel with
    | zero => simp at hf
    | succ n =>
      simp only [List.head?_cons, scanNext, getN_of_some hnd, List.find?_cons,
        isElem_of_some hnd]
      by_cases he : nd.Type_ = NodeType.ElementNode
      · simp [he]
      · simp only [he, if_false, decide_False]
        rw [hnext]
        exact ih (xs ++ [a]) n (by simpa using hr) (by simpa using hf)

/-- The backward scan over an initial part of a linked sibling list finds its
last element node. -/
theorem scanPrev_list {h : Heap} {f : Forest} {parent : Option Ptr}
    (hl : linked h parent none f = true) :
    ∀ (l ys : List Ptr) (fuel : Nat), f.roots = l ++ ys → l.length ≤ fuel →
      scanPrev h fuel l.getLast? = Except.ok (l.reverse.find? (isElem h)) := by
  intro l
  induction l using List.reverseRecOn with
  | nil => intro ys fuel _ _; cases fuel <;> simp [scanPrev]
  | append_singleton xs a ih =>
    intro ys fuel hr hf
    have hr1 : f.roots = xs ++ a :: ys := by simpa using hr
    obtain ⟨nd, hnd, _, hprev, _⟩ := linked_at f parent none xs a ys hl hr1
    cases fuel with
    | zero => simp at hf
    | succ n =>
      simp only [List.getLast?_concat,
        scanPrev, getN_of_some hnd, List.reverse_append, List.reverse_singleton,
        List.singleton_append, List.find?_cons, isElem_of_some hnd]
      by_cases he : nd.Type_ = NodeType.ElementNode
      · simp [he]
      · simp only [he, if_false, decide_False]
        have hp : nd.PrevSibling = xs.getLast? := by
          rw [hprev]
          cases xs.getLast? <;> rfl
        rw [hp]
        exact ih (a :: ys) n hr1 (by simpa using hf)

/-- The loop of `childNodes` wraps the remaining siblings in fresh cells. -/
theorem childNodesLoop_list {h : Heap} {f : Forest} {parent prev : Option Ptr}
    (hl : linked h parent prev f = true) :
    ∀ (l xs : List Ptr) (a : Ptr) (fuel : Nat) (acc : List Ref) (ws : Store),
      f.roots = xs ++ a :: l → l.length + 1 ≤ fuel →
      childNodesLoop h fuel a acc ws =
        Except.ok (acc ++ List.range' ws.length l.length, ws ++ freshCells l) := by
  intro l
  induction l with
  | nil =>
    intro xs a fuel acc ws hr hf
    obtain ⟨nd, hnd, _, _, hnext⟩ := linked_at f parent prev xs a [] hl hr
    cases fuel with
    | zero => simp at hf
    | succ n =>
      simp only [List.head?_nil] at hnext
      simp [childNodesLoop, getN_of_some hnd, hnext, freshCells]
  | cons b ys ih =>
    intro xs a fuel acc ws hr hf
    obtain ⟨nd, hnd, _, _, hnext⟩ := linked_at f parent prev xs a (b :: ys) hl hr
    cases fuel with
    | zero => simp at hf
    | succ n =>
      simp only [List.head?_cons] at hnext
      simp only [childNodesLoop, getN_of_some hnd, hnext, newDOM]
      rw [ih (xs ++ [a]) b n _ _ (by simpa using hr) (by simpa using hf)]
      simp [freshCells, List.range'_succ]

/-! ## List and store helpers -/

theorem head_filter_eq_find {α : Type} (p : α → Bool) (l : List α) :
    (l.filter p).head? = l.find? p := by
  induction l with
  | nil => rfl
  | cons a l ih =>
    by_cases hp : p a = true
    · simp [List.filter_cons, List.find?_cons, hp]
    · simp only [Bool.not_eq_true] at hp
      simp [List.filter_cons, List.find?_cons, hp, ih]

theorem getLast_filter_eq_find {α : Type} (p : α → Bool) (l : List α) :
    (l.filter p).getLast? = l.reverse.find? p := by
  rw [List.getLast?_eq_head?_reverse, ← List.filter_reverse, head_filter_eq_find]

theorem find_some_split {α : Type} (p : α → Bool) :
    ∀ (l : List α) (b : α), l.find? p = some b →
      p b = true ∧ ∃ xs ys, l = xs ++ b :: ys ∧ ∀ a ∈ xs, p a = false := by
  intro l
  induction l with
  | nil => intro b hb; simp at hb
  | cons a l ih =>
    intro b hb
    by_cases hp : p a = true
    · simp only [List.find?_cons, hp, Option.some.injEq] at hb
      subst hb
      exact ⟨hp, [], l, rfl, by simp⟩
    · simp only [Bool.not_eq_true] at hp
      simp only [List.find?_cons, hp] at hb
      obtain ⟨h1, xs, ys, h2, h3⟩ := ih b hb
      refine ⟨h1, a :: xs, ys, by simp [h2], ?_⟩
      intro x hx
      simp only [List.mem_cons] at hx
      rcases hx with hx | hx
      · exact hx ▸ hp
      · exact h3 x hx

theorem find_none_of_all_false {α : Type} (p : α → Bool) (l : List α)
    (hl : ∀ a ∈ l, p a = false) : l.find? p = none := by
  rw [List.find?_eq_none]
  intro x hx
  simp [hl x hx]

theorem getElem_append_head {α : Type} (ws : List α) (c : α) (l : List α) :
    (ws ++ c :: l)[ws.length]? = some c := by
  rw [List.getElem?_append_right (le_refl _)]
  simp

theorem getElem_append_keep {α : Type} {ws : List α} {r : Nat} {w : α}
    (hw : ws[r]? = some w) (l : List α) : (ws ++ l)[r]? = some w := by
  have hlt : r < ws.length := by
    rcases List.getElem?_eq_some.mp hw with ⟨hlt, _⟩
    exact hlt
  rw [List.getElem?_append_left hlt, hw]

theorem nodeAt_some_iff {ws : Store} {r : Ref} {o : Option Ptr} :
    nodeAt ws r = some o ↔ ∃ w, ws[r]? = some w ∧ w.node = o := by
  unfold nodeAt
  cases ws[r]? <;> simp

theorem nodeAt_newDOM (o : Option Ptr) (ws : Store) :
    nodeAt (newDOM o ws).2 (newDOM o ws).1 = some o := by
  simp [nodeAt, newDOM]

theorem nodeAt_append_keep {ws : Store} {r : Ref} {o : Option Ptr}
    (hr : nodeAt ws r = some o) (l : Store) : nodeAt (ws ++ l) r = some o := by
  obtain ⟨w, hw, hn⟩ := nodeAt_some_iff.mp hr
  exact nodeAt_some_iff.mpr ⟨w, getElem_append_keep hw l, hn⟩

/-- The cells that `childNodes` appends are read back by the references it
returns. -/
theorem cells_range_fresh : ∀ (l : List Ptr) (ws : Store),
    (List.range' ws.length l.length).map (fun r => (ws ++ freshCells l)[r]?) =
      l.map (fun a => some (⟨some a, none, none⟩ : DOM)) := by
  intro l
  induction l with
  | nil => intro ws; simp
  | cons a l ih =>
    intro ws
    have h1 := ih (ws ++ [⟨some a, none, none⟩])
    simp only [List.length_append, List.length_singleton, List.append_assoc,
      List.singleton_append] at h1
    simp only [List.length_cons, List.range'_succ, List.map_cons, freshCells]
    simp only [freshCells] at h1
    rw [h1, getElem_append_head]

theorem nodeOf_of {h : Heap} {ws : Store} {d : Ref} {p : Ptr} {nd : Node}
    (hd : nodeAt ws d = some (some p)) (hp : h[p]? = some nd) :
    nodeOf h ws d = Except.ok nd := by
  obtain ⟨w, hw, hn⟩ := nodeAt_some_iff.mp hd
  simp [nodeOf, getW, hw, hn, getN, hp]

theorem nodeOf_absent {h : Heap} {ws : Store} {d : Ref}
    (hd : nodeAt ws d = some none) : nodeOf h ws d = Except.error Fault.nilDeref := by
  obtain ⟨w, hw, hn⟩ := nodeAt_some_iff.mp hd
  simp [nodeOf, getW, hw, hn]

theorem isElementNode_of {h : Heap} {ws : Store} {d : Ref} {p : Ptr} {nd : Node}
    (hd : nodeAt ws d = some (some p)) (hp : h[p]? = some nd) :
    isElementNode h ws d = Except.ok (isElem h p) := by
  obtain ⟨w, hw, hn⟩ := nodeAt_some_iff.mp hd
  simp [isElementNode, getW, hw, hn, getN, hp, isElem]

/-- A selection loop whose test never fails is a filter. -/
theorem selectLoop_filter (p : Ref → Except Fault Bool) (q : Ref → Bool) :
    ∀ (l out : List Ref), (∀ r ∈ l, p r = Except.ok (q r)) →
      selectLoop p l out = Except.ok (out ++ l.filter q) := by
  intro l
  induction l with
  | nil => intro out _; simp [selectLoop]
  | cons a l ih =>
    intro out hp
    have ha := hp a (List.mem_cons_self a l)
    have hl : ∀ r ∈ l, p r = Except.ok (q r) := fun r hr => hp r (List.mem_cons_of_mem a hr)
    cases hq : q a with
    | true =>
      rw [hq] at ha
      simp only [selectLoop, ha]
      rw [ih _ hl]
      simp [List.filter_cons, hq]
    | false =>
      rw [hq] at ha
      simp only [selectLoop, ha]
      rw [ih _ hl]
      simp [List.filter_cons, hq]

/-- Filtering wrappers by a test on their nodes filters the wrapped nodes. -/
theorem filter_through {ws : Store} (q : Ptr → Bool) (qr : Ref → Bool) :
    ∀ (l : List Ref) (addrs : List Ptr),
      l.map (nodeAt ws) = addrs.map (fun a => some (some a)) →
      (∀ r ∈ l, ∀ a, nodeAt ws r = some (some a) → qr r = q a) →
      (l.filter qr).map (nodeAt ws) = (addrs.filter q).map (fun a => some (some a)) := by
  intro l
  induction l with
  | nil =>
    intro addrs hm _
    cases addrs with
    | nil => simp
    | cons a t => simp at hm
  | cons r l ih =>
    intro addrs hm hq
    cases addrs with
    | nil => simp at hm
    | cons a t =>
      simp only [List.map_cons, List.cons.injEq] at hm
      obtain ⟨hra, hlt⟩ := hm
      have h1 := hq r (List.mem_cons_self r l) a hra
      have h2 := ih t hlt (fun x hx => hq x (List.mem_cons_of_mem r hx))
      cases hqa : q a with
      | true =>
        rw [hqa] at h1
        simp [List.filter_cons, h1, hqa, hra, h2]
      | false =>
        rw [hqa] at h1
        simp [List.filter_cons, h1, hqa, h2]

/-- Entries of a list of wrappers over given nodes wrap one of them. -/
theorem nodeAt_of_mem {ws : Store} : ∀ (l : List Ref) (addrs : List Ptr),
    l.map (nodeAt ws) = addrs.map (fun a => some (some a)) →
    ∀ r ∈ l, ∃ a ∈ addrs, nodeAt ws r = some (some a) := by
  intro l
  induction l with
  | nil => intro _ _ r hr; simp at hr
  | cons x l ih =>
    intro addrs hm r hr
    cases addrs with
    | nil => simp at hm
    | cons a t =>
      simp only [List.map_cons, List.cons.injEq] at hm
      simp only [List.mem_cons] at hr
      rcases hr with hr | hr
      · exact ⟨a, List.mem_cons_self a t, hr ▸ hm.1⟩
      · obtain ⟨b, hb, hrb⟩ := ih t hm.2 r hr
        exact ⟨b, List.mem_cons_of_mem a hb, hrb⟩

/-! ## Children and the element-child accessors -/

/-- Unfolding of `treeAt`. -/
theorem treeAt_unfold {h : Heap} {p : Ptr} {k : Forest} (ht : treeAt h p k = true) :
    (∃ nd, h[p]? = some nd ∧ nd.FirstChild = k.first ∧ nd.LastChild = k.last) ∧
    linked h (some p) none k = true ∧ (p :: k.preorder).Nodup := by
  simp only [treeAt, Bool.and_eq_true, decide_eq_true_eq] at ht
  obtain ⟨⟨hnd, hl⟩, hn⟩ := ht
  refine ⟨?_, hl, hn⟩
  cases hp : h[p]? with
  | none => simp [hp] at hnd
  | some nd =>
    simp only [hp, Bool.and_eq_true, decide_eq_true_eq] at hnd
    exact ⟨nd, rfl, hnd.1, hnd.2⟩

/-- The method `childNodes` wraps the children, in order, in fresh cells. -/
theorem childNodes_spec {h : Heap} {ws : Store} {d : Ref} {p : Ptr} {nd : Node}
    {k : Forest} {fuel : Nat} (hd : nodeAt ws d = some (some p))
    (hp : h[p]? = some nd) (hfc : nd.FirstChild = k.first)
    (hl : linked h (some p) none k = true) (hf : k.roots.length ≤ fuel) :
    childNodes h fuel d ws =
      Except.ok (List.range' ws.length k.roots.length, ws ++ freshCells k.roots) := by
  cases k with
  | nil => simp [childNodes, nodeOf_of hd hp, hfc, Forest.first, Forest.roots, freshCells]
  | cons c kc rc =>
    simp only [childNodes, nodeOf_of hd hp, hfc, Forest.first, newDOM]
    have hr : (Forest.cons c kc rc).roots = [] ++ c :: rc.roots := rfl
    rw [childNodesLoop_list hl rc.roots [] c fuel _ _ hr (by simpa [Forest.roots] using hf)]
    simp [Forest.roots, freshCells, List.range'_succ]

/-- The wrappers returned by `childNodes` wrap the children. -/
theorem nodeAt_range_fresh (l : List Ptr) (ws : Store) :
    (List.range' ws.length l.length).map (nodeAt (ws ++ freshCells l)) =
      l.map (fun a => some (some a)) := by
  have h1 := congrArg (List.map (Option.map DOM.node)) (cells_range_fresh l ws)
  simpa [nodeAt, List.map_map, Function.comp_def] using h1

/-- What `Children` returns on a well-formed subtree. -/
theorem Children_eq {h : Heap} {ws : Store} {d : Ref} {p : Ptr} {k : Forest}
    {fuel : Nat} (hd : nodeAt ws d = some (some p)) (ht : treeAt h p k = true)
    (hf : k.roots.length ≤ fuel) :
    ∃ cs, Children h fuel d ws = Except.ok (cs, ws ++ freshCells k.roots) ∧
      cs.map (nodeAt (ws ++ freshCells k.roots)) =
        (k.roots.filter (isElem h)).map (fun a => some (some a)) ∧
      cs.Nodup := by
  obtain ⟨⟨nd, hp, hfc, _⟩, hl, hnd⟩ := treeAt_unfold ht
  have hm := nodeAt_range_fresh k.roots ws
  let qr : Ref → Bool := fun r =>
    match nodeAt (ws ++ freshCells k.roots) r with
    | some (some a) => isElem h a
    | _ => false
  have hsel : ∀ r ∈ List.range' ws.length k.roots.length,
      isElementNode h (ws ++ freshCells k.roots) r = Except.ok (qr r) := by
    intro r hr
    obtain ⟨a, ha, hra⟩ := nodeAt_of_mem _ _ hm r hr
    obtain ⟨na, hna⟩ := linked_mem k _ _ hl a (Forest.roots_sub_preorder k a ha)
    rw [isElementNode_of hra hna]
    simp [qr, hra]
  refine ⟨(List.range' ws.length k.roots.length).filter qr, ?_, ?_, ?_⟩
  · simp only [Children, childNodes_spec hd hp hfc hl hf]
    rw [selectLoop_filter _ qr _ _ hsel]
    simp
  · apply filter_through (isElem h) qr _ _ hm
    intro r _ a hra
    simp [qr, hra]
  · exact List.Nodup.filter _ (List.nodup_range' _ _)

/-- What `FirstElementChild` returns on a well-formed subtree. -/
theorem FirstElementChild_eq {h : Heap} {ws : Store} {d : Ref} {p : Ptr} {k : Forest}
    {fuel : Nat} (hd : nodeAt ws d = some (some p)) (ht : treeAt h p k = true)
    (hf : k.roots.length ≤ fuel) :
    FirstElementChild h fuel d ws =
      Except.ok (newDOM (k.roots.find? (isElem h)) ws) := by
  obtain ⟨⟨nd, hp, hfc, _⟩, hl, _⟩ := treeAt_unfold ht
  obtain ⟨w, hw, hn⟩ := nodeAt_some_iff.mp hd
  have hs := scanNext_list hl k.roots [] fuel rfl hf
  rw [← Forest.first_eq_head] at hs
  cases hk : k.first with
  | none =>
    have hr : k.roots = [] := by
      cases k with
      | nil => rfl
      | cons c kc rc => simp [Forest.first] at hk
    simp [FirstElementChild, getW, hw, hn, getN, hp, hfc, hk, hr]
  | some c =>
    rw [hk] at hs
    simp [FirstElementChild, getW, hw, hn, getN, hp, hfc, hk, hs]

/-- What `LastElementChild` returns on a well-formed subtree. -/
theorem LastElementChild_eq {h : Heap} {ws : Store} {d : Ref} {p : Ptr} {k : Forest}
    {fuel : Nat} (hd : nodeAt ws d = some (some p)) (ht : treeAt h p k = true)
    (hf : k.roots.length ≤ fuel) :
    LastElementChild h fuel d ws =
      Except.ok (newDOM (k.roots.reverse.find? (isElem h)) ws) := by
  obtain ⟨⟨nd, hp, _, hlc⟩, hl, _⟩ := treeAt_unfold ht
  obtain ⟨w, hw, hn⟩ := nodeAt_some_iff.mp hd
  have hs := scanPrev_list hl k.roots [] fuel (by simp) hf
  rw [← Forest.last_eq_getLast] at hs
  cases hk : k.last with
  | none =>
    have hr : k.roots = [] := by
      cases k with
      | nil => rfl
      | cons c kc rc =>
        simp only [Forest.last] at hk
        cases hrc : rc.last <;> simp [hrc] at hk
    simp [LastElementChild, getW, hw, hn, getN, hp, hlc, hk, hr]
  | some c =>
    rw [hk] at hs
    simp [LastElementChild, getW, hw, hn, getN, hp, hlc, hk, hs]

/-- What `NextElementSibling` returns on a node of a linked sibling list. -/
theorem NextElementSibling_eq {h : Heap} {ws : Store} {d : Ref} {f : Forest}
    {parent prev : Option Ptr} {xs ys : List Ptr} {n : Ptr} {fuel : Nat}
    (hd : nodeAt ws d = some (some n)) (hl : linked h parent prev f = true)
    (hr : f.roots = xs ++ n :: ys) (hf : ys.length ≤ fuel) :
    NextElementSibling h fuel d ws = Except.ok (newDOM (ys.find? (isElem h)) ws) := by
  obtain ⟨nd, hnd, _, _, hnext⟩ := linked_at f parent prev xs n ys hl hr
  obtain ⟨w, hw, hn⟩ := nodeAt_some_iff.mp hd
  have hs := scanNext_list hl ys (xs ++ [n]) fuel (by simpa using hr) hf
  simp [NextElementSibling, getW, hw, hn, getN, hnd, hnext, hs]

/-- What `PreviousElementSibling` returns on a node of a linked sibling list. -/
theorem PreviousElementSibling_eq {h : Heap} {ws : Store} {d : Ref} {f : Forest}
    {parent : Option Ptr} {xs ys : List Ptr} {n : Ptr} {fuel : Nat}
    (hd : nodeAt ws d = some (some n)) (hl : linked h parent none f = true)
    (hr : f.roots = xs ++ n :: ys) (hf : xs.length ≤ fuel) :
    PreviousElementSibling h fuel d ws =
      Except.ok (newDOM (xs.reverse.find? (isElem h)) ws) := by
  obtain ⟨nd, hnd, _, hprev, _⟩ := linked_at f parent none xs n ys hl hr
  obtain ⟨w, hw, hn⟩ := nodeAt_some_iff.mp hd
  have hs := scanPrev_list hl xs (n :: ys) fuel hr hf
  have hp : nd.PrevSibling = xs.getLast? := by
    rw [hprev]
    cases xs.getLast? <;> rfl
  simp [PreviousElementSibling, getW, hw, hn, getN, hnd, hp, hs]

/-- The four element accessors on a wrapper of the absent node. -/
theorem accessors_absent {h : Heap} {ws : Store} {d : Ref} (fuel : Nat)
    (hd : nodeAt ws d = some none) :
    FirstElementChild h fuel d ws = Except.ok (newDOM none ws) ∧
    LastElementChild h fuel d ws = Except.ok (newDOM none ws) ∧
    NextElementSibling h fuel d ws = Except.ok (newDOM none ws) ∧
    PreviousElementSibling h fuel d ws = Except.ok (newDOM none ws) := by
  obtain ⟨w, hw, hn⟩ := nodeAt_some_iff.mp hd
  simp [FirstElementChild, LastElementChild, NextElementSibling,
    PreviousElementSibling, getW, hw, hn]

theorem Forest.roots_sublist_preorder (f : Forest) : f.roots.Sublist f.preorder := by
  induction f with
  | nil => exact List.Sublist.slnil
  | cons p k r _ ihr =>
    simp only [Forest.roots, Forest.preorder]
    exact List.Sublist.cons₂ p (List.Sublist.trans ihr (List.sublist_append_right _ _))

theorem map_head_eq {α β γ : Type} (f : α → γ) (g : β → γ) :
    ∀ (cs : List α) (l : List β), cs.map f = l.map g →
      ∀ c, cs.head? = some c → ∃ a, l.head? = some a ∧ f c = g a := by
  intro cs l hm c hc
  have h1 := congrArg List.head? hm
  rw [List.head?_map, List.head?_map, hc] at h1
  cases hl : l.head? with
  | none => simp [hl] at h1
  | some a =>
    simp only [hl, Option.map_some', Option.some.injEq] at h1
    exact ⟨a, rfl, h1⟩

theorem map_getLast_eq {α β γ : Type} (f : α → γ) (g : β → γ) :
    ∀ (cs : List α) (l : List β), cs.map f = l.map g →
      ∀ c, cs.getLast? = some c → ∃ a, l.getLast? = some a ∧ f c = g a := by
  intro cs l hm c hc
  have h1 := congrArg List.getLast? hm
  rw [List.getLast?_map, List.getLast?_map, hc] at h1
  cases hl : l.getLast? with
  | none => simp [hl] at h1
  | some a =>
    simp only [hl, Option.map_some', Option.some.injEq] at h1
    exact ⟨a, rfl, h1⟩

/-! ## The claims on children and siblings -/

/-- C6: on a wrapper of a node of a well-formed tree, `Children` returns
wrappers of exactly the direct children of element type, in document order
and without duplicates (each wrapped node has the receiver's node as parent),
and `ChildElementCount` is the length of that sequence, the number of direct
element children. -/
theorem Children_direct_element_children (h : Heap) (ws : Store) (d : Ref) (p : Ptr)
    (k : Forest) (fuel : Nat) (hd : nodeAt ws d = some (some p))
    (ht : treeAt h p k = true) (hf : k.roots.length ≤ fuel) :
    ∃ cs ws1, Children h fuel d ws = Except.ok (cs, ws1) ∧
      cs.map (nodeAt ws1) = (k.roots.filter (isElem h)).map (fun a => some (some a)) ∧
      cs.Nodup ∧ (k.roots.filter (isElem h)).Nodup ∧
      (∀ a ∈ k.roots, ∃ nd, h[a]? = some nd ∧ nd.Parent = some p) ∧
      ChildElementCount h fuel d ws = Except.ok (cs.length, ws1) ∧
      cs.length = (k.roots.filter (isElem h)).length := by
  obtain ⟨cs, hc, hm, hn⟩ := Children_eq hd ht hf
  obtain ⟨_, hl, hnd⟩ := treeAt_unfold ht
  refine ⟨cs, _, hc, hm, hn, ?_, ?_, ?_, ?_⟩
  · have h1 : k.preorder.Nodup := (List.nodup_cons.mp hnd).2
    exact List.Nodup.filter _ (List.Nodup.sublist (Forest.roots_sublist_preorder k) h1)
  · intro a ha
    obtain ⟨xs, ys, hxy⟩ := List.append_of_mem ha
    obtain ⟨nd, h1, h2, _⟩ := linked_at k (some p) none xs a ys hl hxy
    exact ⟨nd, h1, h2⟩
  · simp [ChildElementCount, hc]
  · have h1 := congrArg List.length hm
    simpa using h1

/-- Witness of C6 on the `body` of the sample document. -/
theorem Children_direct_element_children_witness :
    nodeAt (storeOf 3) 0 = some (some 3) ∧ treeAt sampleHeap 3 sampleBodyKids = true ∧
    ∃ cs ws1, Children sampleHeap 3 0 (storeOf 3) = Except.ok (cs, ws1) ∧
      cs.map (nodeAt ws1) =
        (sampleBodyKids.roots.filter (isElem sampleHeap)).map (fun a => some (some a)) ∧
      cs.Nodup ∧ (sampleBodyKids.roots.filter (isElem sampleHeap)).Nodup ∧
      (∀ a ∈ sampleBodyKids.roots, ∃ nd, sampleHeap[a]? = some nd ∧ nd.Parent = some 3) ∧
      ChildElementCount sampleHeap 3 0 (storeOf 3) = Except.ok (cs.length, ws1) ∧
      cs.length = (sampleBodyKids.roots.filter (isElem sampleHeap)).length :=
  ⟨by decide, by decide,
    Children_direct_element_children sampleHeap (storeOf 3) 0 3 sampleBodyKids 3
      (by decide) (by decide) (by decide)⟩

/-- C7: on a wrapper of a node of a well-formed tree, `Children` wraps the
direct element children in order, `FirstElementChild` wraps the first of them
and the node of the first entry of `Children`, `LastElementChild` the last of
them and the node of the last entry of `Children`; both wrap the absent node
when there is no element child; when the node has exactly one element child,
both wrap that child. -/
theorem element_child_accessors_match_Children (h : Heap) (ws : Store) (d : Ref)
    (p : Ptr) (k : Forest) (fuel : Nat) (hd : nodeAt ws d = some (some p))
    (ht : treeAt h p k = true) (hf : k.roots.length ≤ fuel) :
    ∃ cs,
      Children h fuel d ws = Except.ok (cs, ws ++ freshCells k.roots) ∧
      cs.map (nodeAt (ws ++ freshCells k.roots)) =
        (k.roots.filter (isElem h)).map (fun a => some (some a)) ∧
      FirstElementChild h fuel d ws =
        Except.ok (newDOM (k.roots.filter (isElem h)).head? ws) ∧
      LastElementChild h fuel d ws =
        Except.ok (newDOM (k.roots.filter (isElem h)).getLast? ws) ∧
      (∀ o : Option Ptr, nodeAt (newDOM o ws).2 (newDOM o ws).1 = some o) ∧
      (∀ c, cs.head? = some c →
        nodeAt (newDOM (k.roots.filter (isElem h)).head? ws).2
            (newDOM (k.roots.filter (isElem h)).head? ws).1 =
          nodeAt (ws ++ freshCells k.roots) c ∧
        ∃ a, nodeAt (ws ++ freshCells k.roots) c = some (some a)) ∧
      (∀ c, cs.getLast? = some c →
        nodeAt (newDOM (k.roots.filter (isElem h)).getLast? ws).2
            (newDOM (k.roots.filter (isElem h)).getLast? ws).1 =
          nodeAt (ws ++ freshCells k.roots) c ∧
        ∃ a, nodeAt (ws ++ freshCells k.roots) c = some (some a)) ∧
      (cs = [] ↔ k.roots.filter (isElem h) = []) ∧
      (k.roots.filter (isElem h) = [] →
        FirstElementChild h fuel d ws = Except.ok (newDOM none ws) ∧
        LastElementChild h fuel d ws = Except.ok (newDOM none ws)) ∧
      (∀ a, k.roots.filter (isElem h) = [a] →
        (∃ c, cs = [c] ∧ nodeAt (ws ++ freshCells k.roots) c = some (some a)) ∧
        FirstElementChild h fuel d ws = Except.ok (newDOM (some a) ws) ∧
        LastElementChild h fuel d ws = Except.ok (newDOM (some a) ws)) := by
  obtain ⟨cs, hc, hm, _⟩ := Children_eq hd ht hf
  have hF : FirstElementChild h fuel d ws =
      Except.ok (newDOM (k.roots.filter (isElem h)).head? ws) := by
    rw [head_filter_eq_find]
    exact FirstElementChild_eq hd ht hf
  have hL : LastElementChild h fuel d ws =
      Except.ok (newDOM (k.roots.filter (isElem h)).getLast? ws) := by
    rw [getLast_filter_eq_find]
    exact LastElementChild_eq hd ht hf
  have hlen : cs.length = (k.roots.filter (isElem h)).length := by
    have h1 := congrArg List.length hm
    simpa using h1
  refine ⟨cs, hc, hm, hF, hL, fun o => nodeAt_newDOM o ws, ?_, ?_, ?_, ?_, ?_⟩
  · intro c hcs
    obtain ⟨a, ha, hca⟩ := map_head_eq _ _ cs _ hm c hcs
    rw [nodeAt_newDOM, ha, hca]
    exact ⟨rfl, a, rfl⟩
  · intro c hcs
    obtain ⟨a, ha, hca⟩ := map_getLast_eq _ _ cs _ hm c hcs
    rw [nodeAt_newDOM, ha, hca]
    exact ⟨rfl, a, rfl⟩
  · constructor
    · intro hnil
      rw [hnil] at hlen
      exact List.length_eq_zero.mp hlen.symm
    · intro hnil
      rw [hnil] at hlen
      exact List.length_eq_zero.mp hlen
  · intro hnil
    rw [hF, hL, hnil]
    exact ⟨rfl, rfl⟩
  · intro a ha
    rw [hF, hL, ha]
    refine ⟨?_, rfl, rfl⟩
    rw [ha] at hm
    cases cs with
    | nil => simp at hm
    | cons c t =>
      cases t with
      | nil =>
        simp only [List.map_cons, List.map_nil, List.cons.injEq, and_true] at hm
        exact ⟨c, rfl, hm⟩
      | cons c2 t2 => simp at hm

/-- Witness of C7 on the `ul` of the second sample document: its children are
an element, a text node, a comment, an element and a text node, so the first
and the last element child differ and the last child is not an element. -/
theorem element_child_accessors_match_Children_witness :
    nodeAt (storeOf 0) 0 = some (some 0) ∧ treeAt listHeap 0 listKids = true ∧
    listKids.roots.filter (isElem listHeap) = [1, 4] ∧
    FirstElementChild listHeap 5 0 (storeOf 0) = Except.ok (newDOM (some 1) (storeOf 0)) ∧
    LastElementChild listHeap 5 0 (storeOf 0) = Except.ok (newDOM (some 4) (storeOf 0)) ∧
    ∃ cs, Children listHeap 5 0 (storeOf 0) =
        Except.ok (cs, storeOf 0 ++ freshCells listKids.roots) ∧
      cs.map (nodeAt (storeOf 0 ++ freshCells listKids.roots)) =
        [some (some 1), some (some 4)] :=
  match element_child_accessors_match_Children listHeap (storeOf 0) 0 0 listKids 5
    (by decide) (by decide) (by decide) with
  | ⟨cs, h1, h2, h3, h4, _⟩ => ⟨by decide, by decide, by decide, h3, h4, cs, h1, h2⟩

/-- On the first element child the backward sibling scan finds nothing, on the
last element child the forward scan finds nothing. -/
theorem child_then_sibling_absent {h : Heap} {ws : Store} {d : Ref} {p : Ptr}
    {k : Forest} {fuel : Nat} (hd : nodeAt ws d = some (some p))
    (ht : treeAt h p k = true) (hf : k.roots.length ≤ fuel) :
    ∃ r1 ws1 r2 ws2 r3 ws3 r4 ws4,
      FirstElementChild h fuel d ws = Except.ok (r1, ws1) ∧
      PreviousElementSibling h fuel r1 ws1 = Except.ok (r2, ws2) ∧
      nodeAt ws2 r2 = some none ∧
      LastElementChild h fuel d ws = Except.ok (r3, ws3) ∧
      NextElementSibling h fuel r3 ws3 = Except.ok (r4, ws4) ∧
      nodeAt ws4 r4 = some none := by
  obtain ⟨_, hl, _⟩ := treeAt_unfold ht
  have hA : ∃ r2 ws2, PreviousElementSibling h fuel
        (newDOM (k.roots.find? (isElem h)) ws).1 (newDOM (k.roots.find? (isElem h)) ws).2
        = Except.ok (r2, ws2) ∧ nodeAt ws2 r2 = some none := by
    have hn := nodeAt_newDOM (k.roots.find? (isElem h)) ws
    cases he : k.roots.find? (isElem h) with
    | none =>
      rw [he] at hn
      exact ⟨_, _, (accessors_absent fuel hn).2.2.2, nodeAt_newDOM none _⟩
    | some c =>
      rw [he] at hn
      obtain ⟨_, xs, ys, hxy, hxs⟩ := find_some_split _ _ _ he
      have hlen : xs.length ≤ fuel := by
        have := congrArg List.length hxy
        simp only [List.length_append, List.length_cons] at this
        omega
      have hnone : xs.reverse.find? (isElem h) = none :=
        find_none_of_all_false _ _ (fun a ha => hxs a (List.mem_reverse.mp ha))
      refine ⟨_, _, PreviousElementSibling_eq hn hl hxy hlen, ?_⟩
      rw [hnone]
      exact nodeAt_newDOM none _
  have hB : ∃ r4 ws4, NextElementSibling h fuel
        (newDOM (k.roots.reverse.find? (isElem h)) ws).1
        (newDOM (k.roots.reverse.find? (isElem h)) ws).2
        = Except.ok (r4, ws4) ∧ nodeAt ws4 r4 = some none := by
    have hn := nodeAt_newDOM (k.roots.reverse.find? (isElem h)) ws
    cases he : k.roots.reverse.find? (isElem h) with
    | none =>
      rw [he] at hn
      exact ⟨_, _, (accessors_absent fuel hn).2.2.1, nodeAt_newDOM none _⟩
    | some c =>
      rw [he] at hn
      obtain ⟨_, xs, ys, hxy, hxs⟩ := find_some_split _ _ _ he
      have hroots : k.roots = ys.reverse ++ c :: xs.reverse := by
        have := congrArg List.reverse hxy
        simpa using this
      have hlen : xs.reverse.length ≤ fuel := by
        have := congrArg List.length hroots
        simp only [List.length_append, List.length_cons, List.length_reverse] at this
        simp only [List.length_reverse]
        omega
      have hnone : xs.reverse.find? (isElem h) = none :=
        find_none_of_all_false _ _ (fun a ha => hxs a (List.mem_reverse.mp ha))
      refine ⟨_, _, NextElementSibling_eq hn hl hroots hlen, ?_⟩
      rw [hnone]
      exact nodeAt_newDOM none _
  obtain ⟨r2, ws2, hA1, hA2⟩ := hA
  obtain ⟨r4, ws4, hB1, hB2⟩ := hB
  exact ⟨_, _, r2, ws2, _, _, r4, ws4, FirstElementChild_eq hd ht hf, hA1, hA2,
    LastElementChild_eq hd ht hf, hB1, hB2⟩

/-- The same chains on a wrapper of the absent node. -/
theorem child_then_sibling_absent_of_absent {h : Heap} {ws : Store} {d : Ref}
    (fuel : Nat) (hd : nodeAt ws d = some none) :
    ∃ r1 ws1 r2 ws2 r3 ws3 r4 ws4,
      FirstElementChild h fuel d ws = Except.ok (r1, ws1) ∧
      PreviousElementSibling h fuel r1 ws1 = Except.ok (r2, ws2) ∧
      nodeAt ws2 r2 = some none ∧
      LastElementChild h fuel d ws = Except.ok (r3, ws3) ∧
      NextElementSibling h fuel r3 ws3 = Except.ok (r4, ws4) ∧
      nodeAt ws4 r4 = some none := by
  have h0 := accessors_absent (h := h) fuel hd
  have h1 := accessors_absent (h := h) fuel (nodeAt_newDOM none ws)
  exact ⟨_, _, _, _, _, _, _, _, h0.1, h1.2.2.2, nodeAt_newDOM none _, h0.2.1,
    h1.2.2.1, nodeAt_newDOM none _⟩

/-- C8: for a node `n` of a well-formed sibling list (siblings `xs` before it,
`ys` after it), `NextElementSibling` returns a wrapper of the nearest element
node of `ys` (an element node of `ys` with no element node between `n` and it)
and `PreviousElementSibling` a wrapper of the nearest element node of `xs`,
each a wrapper of the absent node exactly when there is no such sibling, and
neither wraps `n`; and for every wrapper, of a tree node or of the absent
node, the previous element sibling of its first element child and the next
element sibling of its last element child are absent. -/
theorem element_sibling_accessors (h : Heap) (fuel : Nat) (f : Forest)
    (parent : Option Ptr) (xs ys : List Ptr) (n : Ptr) (d : Ref) (ws : Store)
    (hl : linked h parent none f = true) (hnd : f.roots.Nodup)
    (hr : f.roots = xs ++ n :: ys) (hd : nodeAt ws d = some (some n))
    (hf : f.roots.length ≤ fuel) :
    (NextElementSibling h fuel d ws = Except.ok (newDOM (ys.find? (isElem h)) ws) ∧
      PreviousElementSibling h fuel d ws =
        Except.ok (newDOM (xs.reverse.find? (isElem h)) ws) ∧
      nodeAt (newDOM (ys.find? (isElem h)) ws).2 (newDOM (ys.find? (isElem h)) ws).1 =
        some (ys.find? (isElem h)) ∧
      nodeAt (newDOM (xs.reverse.find? (isElem h)) ws).2
          (newDOM (xs.reverse.find? (isElem h)) ws).1 =
        some (xs.reverse.find? (isElem h)) ∧
      (∀ e, ys.find? (isElem h) = some e →
        isElem h e = true ∧ e ≠ n ∧
        ∃ pre post, ys = pre ++ e :: post ∧ ∀ a ∈ pre, isElem h a = false) ∧
      (∀ e, xs.reverse.find? (isElem h) = some e →
        isElem h e = true ∧ e ≠ n ∧
        ∃ pre post, xs = pre ++ e :: post ∧ ∀ a ∈ post, isElem h a = false) ∧
      (ys.find? (isElem h) = none ↔ ∀ a ∈ ys, isElem h a = false) ∧
      (xs.reverse.find? (isElem h) = none ↔ ∀ a ∈ xs, isElem h a = false) ∧
      ys.find? (isElem h) ≠ some n ∧ xs.reverse.find? (isElem h) ≠ some n) ∧
    (∀ (e : Ref) (ws0 : Store) (p : Ptr) (k : Forest),
      nodeAt ws0 e = some (some p) → treeAt h p k = true → k.roots.length ≤ fuel →
      ∃ r1 ws1 r2 ws2 r3 ws3 r4 ws4,
        FirstElementChild h fuel e ws0 = Except.ok (r1, ws1) ∧
        PreviousElementSibling h fuel r1 ws1 = Except.ok (r2, ws2) ∧
        nodeAt ws2 r2 = some none ∧
        LastElementChild h fuel e ws0 = Except.ok (r3, ws3) ∧
        NextElementSibling h fuel r3 ws3 = Except.ok (r4, ws4) ∧
        nodeAt ws4 r4 = some none) ∧
    (∀ (e : Ref) (ws0 : Store), nodeAt ws0 e = some none →
      ∃ r1 ws1 r2 ws2 r3 ws3 r4 ws4,
        FirstElementChild h fuel e ws0 = Except.ok (r1, ws1) ∧
        PreviousElementSibling h fuel r1 ws1 = Except.ok (r2, ws2) ∧
        nodeAt ws2 r2 = some none ∧
        LastElementChild h fuel e ws0 = Except.ok (r3, ws3) ∧
        NextElementSibling h fuel r3 ws3 = Except.ok (r4, ws4) ∧
        nodeAt ws4 r4 = some none) := by
  have hlen := congrArg List.length hr
  simp only [List.length_append, List.length_cons] at hlen
  rw [hr] at hnd
  have hmid := List.nodup_cons.mp (List.nodup_middle.mp hnd)
  have hnot : n ∉ xs ++ ys := hmid.1
  have hny : ∀ e, ys.find? (isElem h) = some e → e ≠ n := by
    intro e hfind hen
    exact hnot (List.mem_append_right _ (hen ▸ List.mem_of_find?_eq_some hfind))
  have hnx : ∀ e, xs.reverse.find? (isElem h) = some e → e ≠ n := by
    intro e hfind hen
    exact hnot (List.mem_append_left _
      (List.mem_reverse.mp (hen ▸ List.mem_of_find?_eq_some hfind)))
  refine ⟨⟨NextElementSibling_eq hd hl hr (by omega),
    PreviousElementSibling_eq hd hl hr (by omega), nodeAt_newDOM _ _, nodeAt_newDOM _ _,
    ?_, ?_, ?_, ?_, fun hfind => hny n hfind rfl, fun hfind => hnx n hfind rfl⟩, ?_, ?_⟩
  · intro e hfind
    obtain ⟨h1, pre, post, h2, h3⟩ := find_some_split _ _ _ hfind
    exact ⟨h1, hny e hfind, pre, post, h2, h3⟩
  · intro e hfind
    obtain ⟨h1, pre, post, h2, h3⟩ := find_some_split _ _ _ hfind
    refine ⟨h1, hnx e hfind, post.reverse, pre.reverse, ?_, ?_⟩
    · have h4 := congrArg List.reverse h2
      simpa using h4
    · intro a ha
      exact h3 a (List.mem_reverse.mp ha)
  · rw [List.find?_eq_none]
    simp
  · rw [List.find?_eq_none]
    simp
  · intro e ws0 p k he ht hk
    exact child_then_sibling_absent he ht hk
  · intro e ws0 he
    exact child_then_sibling_absent_of_absent fuel he

/-- Witness of C8 on the children of the `ul` of the second sample document,
an element, a text node, a comment, an element and a text node: from the first
`li` the next element sibling is the second `li`, past the text node and the
comment, and there is no previous one; from the comment the previous element
sibling is the first `li`, past the text node, and the next is the second. -/
theorem element_sibling_accessors_witness :
    linked listHeap (some 0) none listKids = true ∧ listKids.roots.Nodup ∧
    (listKids.roots = [] ++ 1 :: [2, 3, 4, 5] ∧ nodeAt (storeOf 1) 0 = some (some 1) ∧
      NextElementSibling listHeap 5 0 (storeOf 1) =
        Except.ok (newDOM (some 4) (storeOf 1)) ∧
      PreviousElementSibling listHeap 5 0 (storeOf 1) =
        Except.ok (newDOM none (storeOf 1))) ∧
    (listKids.roots = [1, 2] ++ 3 :: [4, 5] ∧ nodeAt (storeOf 3) 0 = some (some 3) ∧
      NextElementSibling listHeap 5 0 (storeOf 3) =
        Except.ok (newDOM (some 4) (storeOf 3)) ∧
      PreviousElementSibling listHeap 5 0 (storeOf 3) =
        Except.ok (newDOM (some 1) (storeOf 3))) :=
  ⟨by decide, by decide,
    ⟨by decide, by decide,
      (element_sibling_accessors listHeap 5 listKids (some 0) [] [2, 3, 4, 5] 1 0
        (storeOf 1) (by decide) (by decide) (by decide) (by decide) (by decide)).1.1,
      (element_sibling_accessors listHeap 5 listKids (some 0) [] [2, 3, 4, 5] 1 0
        (storeOf 1) (by decide) (by decide) (by decide) (by decide) (by decide)).1.2.1⟩,
    ⟨by decide, by decide,
      (element_sibling_accessors listHeap 5 listKids (some 0) [1, 2] [4, 5] 3 0
        (storeOf 3) (by decide) (by decide) (by decide) (by decide) (by decide)).1.1,
      (element_sibling_accessors listHeap 5 listKids (some 0) [1, 2] [4, 5] 3 0
        (storeOf 3) (by decide) (by decide) (by decide) (by decide) (by decide)).1.2.1⟩⟩

/-- C9: on a wrapper of the absent node each of the four element accessors
returns a fresh wrapper of the absent node, whatever the fuel, and so does
every finite chain of such calls. -/
theorem accessors_on_absent_stay_absent (h : Heap) (fuel : Nat) (ws : Store) (d : Ref)
    (hd : nodeAt ws d = some none) :
    (FirstElementChild h fuel d ws = Except.ok (newDOM none ws) ∧
      LastElementChild h fuel d ws = Except.ok (newDOM none ws) ∧
      NextElementSibling h fuel d ws = Except.ok (newDOM none ws) ∧
      PreviousElementSibling h fuel d ws = Except.ok (newDOM none ws)) ∧
    nodeAt (newDOM none ws).2 (newDOM none ws).1 = some none ∧
    ∀ steps : List Step, ∃ r ws1,
      runChain h fuel steps d ws = Except.ok (r, ws1) ∧ nodeAt ws1 r = some none := by
  refine ⟨accessors_absent fuel hd, nodeAt_newDOM none ws, ?_⟩
  intro steps
  induction steps generalizing d ws with
  | nil => exact ⟨d, ws, rfl, hd⟩
  | cons s rest ih =>
    have h0 := accessors_absent (h := h) fuel hd
    obtain ⟨r, ws1, hrun, hr⟩ := ih (newDOM none ws).2 (newDOM none ws).1
      (nodeAt_newDOM none ws)
    refine ⟨r, ws1, ?_, hr⟩
    cases s
    · simp only [runChain, Step.run, h0.1]; exact hrun
    · simp only [runChain, Step.run, h0.2.1]; exact hrun
    · simp only [runChain, Step.run, h0.2.2.1]; exact hrun
    · simp only [runChain, Step.run, h0.2.2.2]; exact hrun

/-- Witness of C9 on a store holding one wrapper of the absent node. -/
theorem accessors_on_absent_stay_absent_witness :
    nodeAt absentStore 0 = some none ∧
    ∃ r ws1, runChain sampleHeap 0
      [Step.firstElementChild, Step.nextElementSibling, Step.lastElementChild,
        Step.previousElementSibling] 0 absentStore = Except.ok (r, ws1) ∧
      nodeAt ws1 r = some none :=
  ⟨by decide,
    (accessors_on_absent_stay_absent sampleHeap 0 absentStore 0 (by decide)).2.2 _⟩

/-- C10 (what the code does): on a wrapper of the absent node `Attributes`
dereferences the nil node, and so do `ClassName`, `Id`, `HasAttribute` and
`HasAttributes`, which call it; none returns an empty result. -/
theorem attribute_queries_on_absent_fail (h : Heap) (ws : Store) (d : Ref)
    (hd : nodeAt ws d = some none) :
    Attributes h ws d = Except.error Fault.nilDeref ∧
    ClassName h ws d = Except.error Fault.nilDeref ∧
    Id h ws d = Except.error Fault.nilDeref ∧
    (∀ key, HasAttribute h ws d key = Except.error Fault.nilDeref) ∧
    HasAttributes h ws d = Except.error Fault.nilDeref := by
  have ha : Attributes h ws d = Except.error Fault.nilDeref := by
    simp [Attributes, nodeOf_absent hd]
  refine ⟨ha, ?_, ?_, ?_, ?_⟩
  · simp [ClassName, getAttribute, ha]
  · simp [Id, getAttribute, ha]
  · intro key; simp [HasAttribute, ha]
  · simp [HasAttributes, ha]

/-- Witness of the C10 theorem on a store holding one wrapper of the absent
node. -/
theorem attribute_queries_on_absent_fail_witness :
    nodeAt absentStore 0 = some none ∧
    Attributes sampleHeap absentStore 0 = Except.error Fault.nilDeref ∧
    ClassName sampleHeap absentStore 0 = Except.error Fault.nilDeref ∧
    Id sampleHeap absentStore 0 = Except.error Fault.nilDeref ∧
    (∀ key, HasAttribute sampleHeap absentStore 0 key = Except.error Fault.nilDeref) ∧
    HasAttributes sampleHeap absentStore 0 = Except.error Fault.nilDeref :=
  ⟨by decide, attribute_queries_on_absent_fail sampleHeap absentStore 0 (by decide)⟩

/-! ## The flattened node list -/

/-- One call of `getFlatNodeList` on a wrapper with an unset node cache, given
that the loop over the children behaves on the child forest `k`: the result is
the receiver followed by fresh wrappers of the descendants in pre-order. -/
theorem flat_node_of_loop {h : Heap} {k : Forest} {m : Nat}
    (hloop : ∀ (parent prev : Option Ptr) (cs : List Ref) (ws : Store) (acc : List Ref),
      linked h parent prev k = true →
      cs.map (fun r => ws[r]?) = k.roots.map (fun a => some (⟨some a, none, none⟩ : DOM)) →
      ∃ L F, flatLoop (getFlatNodeList h m false) cs acc ws = Except.ok (acc ++ L, ws ++ F) ∧
        L.map (fun r => (ws ++ F)[r]?) =
          k.preorder.map (fun a => some (⟨some a, none, none⟩ : DOM)) ∧
        (∀ r ∈ L, r ∈ cs ∨ ws.length ≤ r))
    {p : Ptr} {nd : Node} {ws : Store} {d : Ref} {ce : Option (List Ref)}
    (sc : Bool) (hp : h[p]? = some nd) (hfc : nd.FirstChild = k.first)
    (hl : linked h (some p) none k = true) (hw : ws[d]? = some ⟨some p, ce, none⟩)
    (hm : k.size ≤ m) :
    ∃ L F, getFlatNodeList h (m + 1) sc d ws =
        Except.ok (d :: L, if sc then setFlatNodeList (ws ++ F) d (d :: L) else ws ++ F) ∧
      L.map (fun r => (ws ++ F)[r]?) =
        k.preorder.map (fun a => some (⟨some a, none, none⟩ : DOM)) ∧
      (∀ r ∈ L, ws.length ≤ r) := by
  have hd : nodeAt ws d = some (some p) := nodeAt_some_iff.mpr ⟨_, hw, rfl⟩
  have hlen : k.roots.length ≤ m + 1 := by
    have := Forest.roots_length_le k
    omega
  have hcn := childNodes_spec hd hp hfc hl hlen
  obtain ⟨L, F, hrun, hcells, hge⟩ := hloop (some p) none
    (List.range' ws.length k.roots.length) (ws ++ freshCells k.roots) [d] hl
    (cells_range_fresh k.roots ws)
  refine ⟨L, freshCells k.roots ++ F, ?_, ?_, ?_⟩
  · cases k with
    | nil =>
      simp only [Forest.roots, List.length_nil, List.range'_zero, flatLoop, freshCells,
        List.map_nil, List.append_nil, Except.ok.injEq, Prod.mk.injEq] at hrun
      simp only [Forest.first] at hfc
      simp only [getFlatNodeList, getW, hw, nodeOf_of hd hp, hfc, Forest.roots,
        freshCells, List.map_nil, List.nil_append]
      rw [← hrun.2]
      have hL : [d] = d :: L := by simpa using hrun.1
      rw [← hL]
      cases sc <;> simp
    | cons c kc rc =>
      have hfc1 : nd.FirstChild = some c := by rw [hfc]; rfl
      simp only [getFlatNodeList, getW, hw, nodeOf_of hd hp, hfc1, hcn, hrun,
        List.singleton_append, List.append_assoc]
      cases sc <;> simp
  · simpa [List.append_assoc] using hcells
  · intro r hr
    rcases hge r hr with h1 | h1
    · exact (List.mem_range'_1.mp h1).1
    · simp only [List.length_append] at h1
      omega

/-- Cells read as fresh wrappers stay so when the store grows. -/
theorem fresh_cells_keep {ws : Store} (F : Store) :
    ∀ (L : List Ref) (addrs : List Ptr),
      L.map (fun r => ws[r]?) = addrs.map (fun a => some (⟨some a, none, none⟩ : DOM)) →
      L.map (fun r => (ws ++ F)[r]?) =
        addrs.map (fun a => some (⟨some a, none, none⟩ : DOM)) := by
  intro L
  induction L with
  | nil => intro addrs hm; simpa using hm
  | cons x L ih =>
    intro addrs hm
    cases addrs with
    | nil => simp at hm
    | cons a t =>
      simp only [List.map_cons, List.cons.injEq] at hm ⊢
      exact ⟨getElem_append_keep hm.1 F, ih t hm.2⟩

/-- The loop of `getFlatNodeList` over wrappers of the siblings of a linked
forest appends fresh wrappers of all its nodes in pre-order. -/
theorem flat_loop {h : Heap} : ∀ (f : Forest) (n : Nat), f.size ≤ n →
    ∀ (parent prev : Option Ptr) (cs : List Ref) (ws : Store) (acc : List Ref),
      linked h parent prev f = true →
      cs.map (fun r => ws[r]?) = f.roots.map (fun a => some (⟨some a, none, none⟩ : DOM)) →
      ∃ L F, flatLoop (getFlatNodeList h n false) cs acc ws = Except.ok (acc ++ L, ws ++ F) ∧
        L.map (fun r => (ws ++ F)[r]?) =
          f.preorder.map (fun a => some (⟨some a, none, none⟩ : DOM)) ∧
        (∀ r ∈ L, r ∈ cs ∨ ws.length ≤ r) := by
  intro f
  induction f with
  | nil =>
    intro n _ parent prev cs ws acc _ hcs
    have hnil : cs = [] := by
      cases cs with
      | nil => rfl
      | cons c t => simp [Forest.roots] at hcs
    subst hnil
    exact ⟨[], [], by simp [flatLoop], by simp [Forest.preorder], by simp⟩
  | cons p k r ihk ihr =>
    intro n hn parent prev cs ws acc hl hcs
    obtain ⟨⟨nd, hp, _, _, _, hfc, _⟩, hlk, hlr⟩ := linked_cons hl
    simp only [Forest.size] at hn
    cases cs with
    | nil => simp [Forest.roots] at hcs
    | cons c cs1 =>
      simp only [Forest.roots, List.map_cons, List.cons.injEq] at hcs
      obtain ⟨hc, hcs1⟩ := hcs
      cases n with
      | zero => omega
      | succ m =>
        obtain ⟨L1, F1, hrun1, hcells1, hge1⟩ :=
          flat_node_of_loop (fun parent prev cs ws acc => ihk m (by omega) parent prev cs ws acc)
            false hp hfc hlk hc (by omega)
        simp only [Bool.false_eq_true, if_false] at hrun1
        obtain ⟨L2, F2, hrun2, hcells2, hge2⟩ :=
          ihr (m + 1) (by omega) parent (some p) cs1 (ws ++ F1) (acc ++ c :: L1) hlr
            (fresh_cells_keep F1 cs1 _ hcs1)
        refine ⟨c :: L1 ++ L2, F1 ++ F2, ?_, ?_, ?_⟩
        · simp only [flatLoop, hrun1, hrun2]
          simp [List.append_assoc]
        · simp only [Forest.preorder, List.map_cons, List.cons_append, List.map_append,
            List.cons.injEq]
          rw [← List.append_assoc]
          refine ⟨getElem_append_keep (getElem_append_keep hc F1) F2, ?_⟩
          rw [fresh_cells_keep F2 L1 _ hcells1, hcells2]
        · intro x hx
          simp only [List.cons_append, List.mem_cons, List.mem_append] at hx
          rcases hx with hx | hx | hx
          · exact Or.inl (hx ▸ List.mem_cons_self c cs1)
          · exact Or.inr (hge1 x hx)
          · rcases hge2 x hx with h1 | h1
            · exact Or.inl (List.mem_cons_of_mem c h1)
            · simp only [List.length_append] at h1
              exact Or.inr (by omega)

/-- The method `getFlatNodeList` on a wrapper with an unset node cache over a
well-formed subtree: it returns the receiver followed by fresh wrappers (both
caches unset, allocated by this call) of the descendants in pre-order. -/
theorem getFlatNodeList_fresh {h : Heap} {p : Ptr} {k : Forest} {ws : Store} {d : Ref}
    {ce : Option (List Ref)} {fuel : Nat} (sc : Bool) (ht : treeAt h p k = true)
    (hw : ws[d]? = some ⟨some p, ce, none⟩) (hf : k.size + 1 ≤ fuel) :
    ∃ L F, getFlatNodeList h fuel sc d ws =
        Except.ok (d :: L, if sc then setFlatNodeList (ws ++ F) d (d :: L) else ws ++ F) ∧
      L.map (fun r => (ws ++ F)[r]?) =
        k.preorder.map (fun a => some (⟨some a, none, none⟩ : DOM)) ∧
      (∀ r ∈ L, ws.length ≤ r) := by
  obtain ⟨⟨nd, hp, hfc, _⟩, hl, _⟩ := treeAt_unfold ht
  cases fuel with
  | zero => omega
  | succ m =>
    exact flat_node_of_loop
      (fun parent prev cs ws acc => flat_loop k m (by omega) parent prev cs ws acc)
      sc hp hfc hl hw (by omega)

/-! ## The caches -/

theorem cachesSound_iff {h : Heap} {ws : Store} {d : Ref} {p : Ptr} {k : Forest} :
    cachesSound h ws d p k = true ↔
      ∃ w, ws[d]? = some w ∧ w.node = some p ∧
        (∀ l, w.flatNodeList = some l →
          l.map (nodeAt ws) = (p :: k.preorder).map (fun a => some (some a))) ∧
        (∀ l, w.flatElementList = some l →
          l.map (nodeAt ws) =
            ((p :: k.preorder).filter (isElem h)).map (fun a => some (some a))) := by
  unfold cachesSound
  cases hw : ws[d]? with
  | none => simp
  | some w =>
    rcases w with ⟨nd, ce, cn⟩
    cases ce <;> cases cn <;> simp [and_assoc]

/-- A wrapper with both caches unset has sound caches. -/
theorem cachesSound_fresh (h : Heap) {ws : Store} {d : Ref} (p : Ptr) (k : Forest)
    (hw : ws[d]? = some ⟨some p, none, none⟩) : cachesSound h ws d p k = true := by
  simp [cachesSound, hw]

theorem nodeAt_setFlatNodeList (ws : Store) (d : Ref) (l : List Ref) (r : Ref) :
    nodeAt (setFlatNodeList ws d l) r = nodeAt ws r := by
  unfold setFlatNodeList nodeAt
  cases hw : ws[d]? with
  | none => rfl
  | some w =>
    simp only [List.getElem?_set]
    by_cases hdr : d = r
    · subst hdr
      have hlt : d < ws.length := (List.getElem?_eq_some.mp hw).1
      simp [hlt, hw]
    · simp [hdr]

theorem nodeAt_setFlatElementList (ws : Store) (d : Ref) (l : List Ref) (r : Ref) :
    nodeAt (setFlatElementList ws d l) r = nodeAt ws r := by
  unfold setFlatElementList nodeAt
  cases hw : ws[d]? with
  | none => rfl
  | some w =>
    simp only [List.getElem?_set]
    by_cases hdr : d = r
    · subst hdr
      have hlt : d < ws.length := (List.getElem?_eq_some.mp hw).1
      simp [hlt, hw]
    · simp [hdr]

theorem getElem_setFlatNodeList {ws : Store} {d : Ref} {w : DOM} (l : List Ref)
    (hw : ws[d]? = some w) :
    (setFlatNodeList ws d l)[d]? = some { w with flatNodeList := some l } := by
  have hlt : d < ws.length := (List.getElem?_eq_some.mp hw).1
  simp [setFlatNodeList, hw, List.getElem?_set, hlt]

theorem getElem_setFlatElementList {ws : Store} {d : Ref} {w : DOM} (l : List Ref)
    (hw : ws[d]? = some w) :
    (setFlatElementList ws d l)[d]? = some { w with flatElementList := some l } := by
  have hlt : d < ws.length := (List.getElem?_eq_some.mp hw).1
  simp [setFlatElementList, hw, List.getElem?_set, hlt]

/-- Wrappers of given nodes stay wrappers of them when the store grows. -/
theorem map_nodeAt_keep {ws ws1 : Store}
    (hext : ∀ r o, nodeAt ws r = some o → nodeAt ws1 r = some o) :
    ∀ (L : List Ref) (addrs : List Ptr),
      L.map (nodeAt ws) = addrs.map (fun a => some (some a)) →
      L.map (nodeAt ws1) = addrs.map (fun a => some (some a)) := by
  intro L
  induction L with
  | nil => intro addrs hm; simpa using hm
  | cons x L ih =>
    intro addrs hm
    cases addrs with
    | nil => simp at hm
    | cons a t =>
      simp only [List.map_cons, List.cons.injEq] at hm ⊢
      exact ⟨hext x _ hm.1, ih t hm.2⟩

/-- The method `getFlatNodeList` with caching on a wrapper with sound caches
over a well-formed subtree: it returns wrappers of the nodes of the subtree in
pre-order, keeps what every wrapper wraps, and leaves the caches sound. -/
theorem getFlatNodeList_sound {h : Heap} {p : Ptr} {k : Forest} {ws : Store} {d : Ref}
    {fuel : Nat} (ht : treeAt h p k = true) (hs : cachesSound h ws d p k = true)
    (hf : k.size + 1 ≤ fuel) :
    ∃ L ws1, getFlatNodeList h fuel true d ws = Except.ok (L, ws1) ∧
      L.map (nodeAt ws1) = (p :: k.preorder).map (fun a => some (some a)) ∧
      (∀ r o, nodeAt ws r = some o → nodeAt ws1 r = some o) ∧
      (∃ w w1, ws[d]? = some w ∧ ws1[d]? = some w1 ∧ w1.node = some p ∧
        w1.flatNodeList = some L ∧ w1.flatElementList = w.flatElementList) := by
  obtain ⟨w, hw, hn, hcn, hce⟩ := cachesSound_iff.mp hs
  rcases w with ⟨nd, ce, cn⟩
  simp only at hn hcn hce
  subst hn
  cases cn with
  | some l =>
    cases fuel with
    | zero => omega
    | succ m =>
      refine ⟨l, ws, ?_, hcn l rfl, fun r o hr => hr, ?_⟩
      · simp [getFlatNodeList, getW, hw]
      · exact ⟨_, _, hw, hw, rfl, rfl, rfl⟩
  | none =>
    obtain ⟨L, F, hrun, hcells, _⟩ := getFlatNodeList_fresh true ht hw hf
    simp only [if_true] at hrun
    have hwF : (ws ++ F)[d]? = some ⟨some p, ce, none⟩ := getElem_append_keep hw F
    have hL : L.map (nodeAt (ws ++ F)) = k.preorder.map (fun a => some (some a)) := by
      have h1 := congrArg (List.map (Option.map DOM.node)) hcells
      simpa [nodeAt, List.map_map, Function.comp_def] using h1
    refine ⟨d :: L, _, hrun, ?_, ?_, ?_⟩
    · have hkeep : ∀ r o, nodeAt (ws ++ F) r = some o →
          nodeAt (setFlatNodeList (ws ++ F) d (d :: L)) r = some o := by
        intro r o hr
        rw [nodeAt_setFlatNodeList]
        exact hr
      simp only [List.map_cons, List.cons.injEq]
      exact ⟨hkeep d _ (nodeAt_some_iff.mpr ⟨_, hwF, rfl⟩), map_nodeAt_keep hkeep L _ hL⟩
    · intro r o hr
      rw [nodeAt_setFlatNodeList]
      exact nodeAt_append_keep hr F
    · exact ⟨_, _, hw, getElem_setFlatNodeList (d :: L) hwF, rfl, rfl, rfl⟩

theorem treeAt_mem {h : Heap} {p : Ptr} {k : Forest} (ht : treeAt h p k = true) :
    ∀ a ∈ p :: k.preorder, ∃ nd, h[a]? = some nd := by
  obtain ⟨⟨nd, hp, _, _⟩, hl, _⟩ := treeAt_unfold ht
  intro a ha
  simp only [List.mem_cons] at ha
  rcases ha with ha | ha
  · exact ⟨nd, ha ▸ hp⟩
  · exact linked_mem k _ _ hl a ha

/-- Selecting the element wrappers out of wrappers of given heap nodes. -/
theorem select_elements {h : Heap} {ws : Store} {L : List Ref} {addrs : List Ptr}
    (hm : L.map (nodeAt ws) = addrs.map (fun a => some (some a)))
    (hin : ∀ a ∈ addrs, ∃ nd, h[a]? = some nd) :
    ∃ E, selectLoop (isElementNode h ws) L [] = Except.ok E ∧
      E.map (nodeAt ws) = (addrs.filter (isElem h)).map (fun a => some (some a)) ∧
      E.Sublist L := by
  let qr : Ref → Bool := fun r =>
    match nodeAt ws r with
    | some (some a) => isElem h a
    | _ => false
  have hsel : ∀ r ∈ L, isElementNode h ws r = Except.ok (qr r) := by
    intro r hr
    obtain ⟨a, ha, hra⟩ := nodeAt_of_mem _ _ hm r hr
    obtain ⟨na, hna⟩ := hin a ha
    rw [isElementNode_of hra hna]
    simp [qr, hra]
  refine ⟨L.filter qr, ?_, ?_, List.filter_sublist L⟩
  · rw [selectLoop_filter _ qr _ _ hsel]
    simp
  · apply filter_through (isElem h) qr _ _ hm
    intro r _ a hra
    simp [qr, hra]

/-- The method `getFlatElementList` with caching on a wrapper with sound caches
over a well-formed subtree: it returns wrappers of the element nodes of the
subtree in pre-order, keeps what every wrapper wraps, and leaves the caches
sound. -/
theorem getFlatElementList_sound {h : Heap} {p : Ptr} {k : Forest} {ws : Store}
    {d : Ref} {fuel : Nat} (ht : treeAt h p k = true)
    (hs : cachesSound h ws d p k = true) (hf : k.size + 1 ≤ fuel) :
    ∃ L ws1, getFlatElementList h fuel true d ws = Except.ok (L, ws1) ∧
      L.map (nodeAt ws1) =
        ((p :: k.preorder).filter (isElem h)).map (fun a => some (some a)) ∧
      cachesSound h ws1 d p k = true ∧
      (∀ r o, nodeAt ws r = some o → nodeAt ws1 r = some o) := by
  obtain ⟨w, hw, hn, hcn, hce⟩ := cachesSound_iff.mp hs
  cases hcache : w.flatElementList with
  | some l =>
    refine ⟨l, ws, ?_, hce l hcache, hs, fun r o hr => hr⟩
    simp [getFlatElementList, getW, hw, hcache]
  | none =>
    obtain ⟨Ln, ws1, hrun, hLn, hext, w0, w1, hw0, hw1, hn1, hcn1, hce1⟩ :=
      getFlatNodeList_sound ht hs hf
    have hww : w0 = w := by
      rw [hw] at hw0
      exact (Option.some.inj hw0).symm
    rw [hww, hcache] at hce1
    obtain ⟨E, hsel, hE, _⟩ := select_elements hLn (treeAt_mem ht)
    have hkeep : ∀ r o, nodeAt ws1 r = some o →
        nodeAt (setFlatElementList ws1 d E) r = some o := by
      intro r o hr
      rw [nodeAt_setFlatElementList]
      exact hr
    refine ⟨E, setFlatElementList ws1 d E, ?_, map_nodeAt_keep hkeep E _ hE, ?_, ?_⟩
    · simp [getFlatElementList, getW, hw, hcache, hrun, hsel]
    · refine cachesSound_iff.mpr ⟨_, getElem_setFlatElementList E hw1, hn1, ?_, ?_⟩
      · intro l hl
        simp only [hcn1, Option.some.injEq] at hl
        subst hl
        exact map_nodeAt_keep hkeep _ _ hLn
      · intro l hl
        simp only [Option.some.injEq] at hl
        subst hl
        exact map_nodeAt_keep hkeep _ _ hE
    · intro r o hr
      exact hkeep r o (hext r o hr)

/-! ## The searches -/

theorem getAttribute_ok {h : Heap} {ws : Store} {r : Ref} {nd : Node}
    (hn : nodeOf h ws r = Except.ok nd) (key : String) :
    ∃ s, getAttribute h ws r key = Except.ok s := by
  simp only [getAttribute, Attributes, hn]
  cases mapIndex (List.foldl (fun m a => mapAssign m a.Key a.Val) [] nd.Attr) key with
  | none => exact ⟨_, rfl⟩
  | some v => exact ⟨_, rfl⟩

theorem TagName_element {h : Heap} {ws : Store} {r : Ref} {a : Ptr}
    (hr : nodeAt ws r = some (some a)) (he : isElem h a = true) :
    TagName h ws r = Except.ok (dataAt h a) := by
  cases ha : h[a]? with
  | none => simp [isElem, ha] at he
  | some nd =>
    simp only [isElem, ha, decide_eq_true_eq] at he
    simp [TagName, nodeOf_of hr ha, he, dataAt, ha]

/-- The loop of `GetElementById` over wrappers whose `Id()` returns is a search
for the first match. -/
theorem findIdLoop_find {h : Heap} {ws : Store} (id : String) :
    ∀ (L : List Ref), (∀ r ∈ L, ∃ s, Id h ws r = Except.ok s) →
      findIdLoop h ws id L =
        Except.ok (L.find? (fun r => decide (Id h ws r = Except.ok id))) := by
  intro L
  induction L with
  | nil => intro _; rfl
  | cons x L ih =>
    intro hok
    obtain ⟨s, hs⟩ := hok x (List.mem_cons_self x L)
    have hL := ih (fun r hr => hok r (List.mem_cons_of_mem x hr))
    by_cases hid : s = id
    · simp [findIdLoop, hs, hid, List.find?_cons]
    · simp [findIdLoop, hs, hid, List.find?_cons, hL]

/-- Wrappers of heap nodes answer `Id`, `TagName` and `ClassList`. -/
theorem queries_ok {h : Heap} {ws : Store} {L : List Ref} {addrs : List Ptr}
    (hm : L.map (nodeAt ws) = addrs.map (fun a => some (some a)))
    (hin : ∀ a ∈ addrs, ∃ nd, h[a]? = some nd) :
    ∀ r ∈ L, (∃ s, Id h ws r = Except.ok s) ∧ (∃ s, TagName h ws r = Except.ok s) ∧
      (∃ l, ClassList h ws r = Except.ok l) := by
  intro r hr
  obtain ⟨a, ha, hra⟩ := nodeAt_of_mem _ _ hm r hr
  obtain ⟨nd, hnd⟩ := hin a ha
  have hn := nodeOf_of hra hnd
  refine ⟨getAttribute_ok hn "id", ?_, ?_⟩
  · simp only [TagName, hn]
    split_ifs <;> exact ⟨_, rfl⟩
  · obtain ⟨s, hs⟩ := getAttribute_ok hn "class"
    exact ⟨splitSpace s, by simp [ClassList, ClassName, hs]⟩

/-- C1: on a wrapper with sound caches over a well-formed tree,
`GetElementById` returns the first entry of the flattened element list of the
receiver (wrappers of the element nodes of its subtree in pre-order) whose
`Id()` is `id`: no entry before it matches; and it returns the nil result
exactly when no entry matches. -/
theorem GetElementById_first_match (h : Heap) (ws : Store) (d : Ref) (p : Ptr)
    (k : Forest) (fuel : Nat) (id : String) (ht : treeAt h p k = true)
    (hs : cachesSound h ws d p k = true) (hf : k.size + 1 ≤ fuel) :
    ∃ L ws1, getFlatElementList h fuel true d ws = Except.ok (L, ws1) ∧
      L.map (nodeAt ws1) =
        ((p :: k.preorder).filter (isElem h)).map (fun a => some (some a)) ∧
      GetElementById h fuel d id ws =
        Except.ok (L.find? (fun r => decide (Id h ws1 r = Except.ok id)), ws1) ∧
      (∀ r, L.find? (fun r => decide (Id h ws1 r = Except.ok id)) = some r →
        Id h ws1 r = Except.ok id ∧
        ∃ pre post, L = pre ++ r :: post ∧ ∀ x ∈ pre, Id h ws1 x ≠ Except.ok id) ∧
      (L.find? (fun r => decide (Id h ws1 r = Except.ok id)) = none ↔
        ∀ r ∈ L, Id h ws1 r ≠ Except.ok id) := by
  obtain ⟨L, ws1, hrun, hL, _, _⟩ := getFlatElementList_sound ht hs hf
  have hin : ∀ a ∈ (p :: k.preorder).filter (isElem h), ∃ nd, h[a]? = some nd :=
    fun a ha => treeAt_mem ht a (List.mem_of_mem_filter ha)
  have hok : ∀ r ∈ L, ∃ s, Id h ws1 r = Except.ok s :=
    fun r hr => (queries_ok hL hin r hr).1
  refine ⟨L, ws1, hrun, hL, ?_, ?_, ?_⟩
  · simp [GetElementById, hrun, findIdLoop_find id L hok]
  · intro r hr
    obtain ⟨h1, pre, post, h2, h3⟩ := find_some_split _ _ _ hr
    refine ⟨by simpa using h1, pre, post, h2, ?_⟩
    intro x hx
    simpa using h3 x hx
  · rw [List.find?_eq_none]
    simp

/-- Witness of C1 on the document node of the sample document. -/
theorem GetElementById_first_match_witness :
    treeAt sampleHeap 0 sampleDocKids = true ∧
    cachesSound sampleHeap (storeOf 0) 0 0 sampleDocKids = true ∧
    ∃ L ws1, getFlatElementList sampleHeap 9 true 0 (storeOf 0) = Except.ok (L, ws1) ∧
      L.map (nodeAt ws1) =
        ((0 :: sampleDocKids.preorder).filter (isElem sampleHeap)).map
          (fun a => some (some a)) ∧
      GetElementById sampleHeap 9 0 "a" (storeOf 0) =
        Except.ok (L.find? (fun r => decide (Id sampleHeap ws1 r = Except.ok "a")), ws1) ∧
      (∀ r, L.find? (fun r => decide (Id sampleHeap ws1 r = Except.ok "a")) = some r →
        Id sampleHeap ws1 r = Except.ok "a" ∧
        ∃ pre post, L = pre ++ r :: post ∧
          ∀ x ∈ pre, Id sampleHeap ws1 x ≠ Except.ok "a") ∧
      (L.find? (fun r => decide (Id sampleHeap ws1 r = Except.ok "a")) = none ↔
        ∀ r ∈ L, Id sampleHeap ws1 r ≠ Except.ok "a") :=
  ⟨by decide, by decide,
    GetElementById_first_match sampleHeap (storeOf 0) 0 0 sampleDocKids 9 "a"
      (by decide) (by decide) (by decide)⟩

/-- C2: on a wrapper with sound caches over a well-formed tree,
`GetElementsByTagName` returns the entries of the flattened element list of
the receiver whose `TagName()` is `tag`, in the order of that list; they wrap
the element nodes of the subtree whose tag string is exactly `tag`, in
pre-order; the result is empty when no entry has that tag. -/
theorem GetElementsByTagName_filter (h : Heap) (ws : Store) (d : Ref) (p : Ptr)
    (k : Forest) (fuel : Nat) (tag : String) (ht : treeAt h p k = true)
    (hs : cachesSound h ws d p k = true) (hf : k.size + 1 ≤ fuel) :
    ∃ L ws1, getFlatElementList h fuel true d ws = Except.ok (L, ws1) ∧
      L.map (nodeAt ws1) =
        ((p :: k.preorder).filter (isElem h)).map (fun a => some (some a)) ∧
      GetElementsByTagName h fuel d tag ws =
        Except.ok (L.filter (fun r => decide (TagName h ws1 r = Except.ok tag)), ws1) ∧
      (L.filter (fun r => decide (TagName h ws1 r = Except.ok tag))).map (nodeAt ws1) =
        (((p :: k.preorder).filter (isElem h)).filter
          (fun a => decide (dataAt h a = tag))).map (fun a => some (some a)) ∧
      ((∀ r ∈ L, TagName h ws1 r ≠ Except.ok tag) →
        L.filter (fun r => decide (TagName h ws1 r = Except.ok tag)) = []) := by
  obtain ⟨L, ws1, hrun, hL, _, _⟩ := getFlatElementList_sound ht hs hf
  have hin : ∀ a ∈ (p :: k.preorder).filter (isElem h), ∃ nd, h[a]? = some nd :=
    fun a ha => treeAt_mem ht a (List.mem_of_mem_filter ha)
  have hsel : ∀ r ∈ L, tagIs h ws1 tag r =
      Except.ok (decide (TagName h ws1 r = Except.ok tag)) := by
    intro r hr
    obtain ⟨s, hs1⟩ := (queries_ok hL hin r hr).2.1
    simp [tagIs, hs1]
  refine ⟨L, ws1, hrun, hL, ?_, ?_, ?_⟩
  · simp [GetElementsByTagName, hrun, selectLoop_filter _ _ L [] hsel]
  · apply filter_through _ _ L _ hL
    intro r hr a hra
    obtain ⟨b, hb, hrb⟩ := nodeAt_of_mem _ _ hL r hr
    have hab : b = a := by
      rw [hra] at hrb
      simpa using hrb.symm
    subst hab
    have he : isElem h b = true := (List.mem_filter.mp hb).2
    rw [TagName_element hra he]
    simp
  · intro hno
    rw [List.filter_eq_nil_iff]
    intro r hr
    simpa using hno r hr

/-- Witness of C2 on the document node of the sample document. -/
theorem GetElementsByTagName_filter_witness :
    treeAt sampleHeap 0 sampleDocKids = true ∧
    cachesSound sampleHeap (storeOf 0) 0 0 sampleDocKids = true ∧
    ∃ L ws1, getFlatElementList sampleHeap 9 true 0 (storeOf 0) = Except.ok (L, ws1) ∧
      L.map (nodeAt ws1) =
        ((0 :: sampleDocKids.preorder).filter (isElem sampleHeap)).map
          (fun a => some (some a)) ∧
      GetElementsByTagName sampleHeap 9 0 "div" (storeOf 0) =
        Except.ok
          (L.filter (fun r => decide (TagName sampleHeap ws1 r = Except.ok "div")), ws1) ∧
      (L.filter (fun r => decide (TagName sampleHeap ws1 r = Except.ok "div"))).map
          (nodeAt ws1) =
        (((0 :: sampleDocKids.preorder).filter (isElem sampleHeap)).filter
          (fun a => decide (dataAt sampleHeap a = "div"))).map (fun a => some (some a)) ∧
      ((∀ r ∈ L, TagName sampleHeap ws1 r ≠ Except.ok "div") →
        L.filter (fun r => decide (TagName sampleHeap ws1 r = Except.ok "div")) = []) :=
  ⟨by decide, by decide,
    GetElementsByTagName_filter sampleHeap (storeOf 0) 0 0 sampleDocKids 9 "div"
      (by decide) (by decide) (by decide)⟩

/-- C3: on a wrapper with sound caches over a well-formed tree,
`GetElementsByClassName` returns the entries of the flattened element list of
the receiver whose `ClassList()` contains `cls`, in the order of that list; the
result is empty when no entry has that class. -/
theorem GetElementsByClassName_filter (h : Heap) (ws : Store) (d : Ref) (p : Ptr)
    (k : Forest) (fuel : Nat) (cls : String) (ht : treeAt h p k = true)
    (hs : cachesSound h ws d p k = true) (hf : k.size + 1 ≤ fuel) :
    ∃ L ws1, getFlatElementList h fuel true d ws = Except.ok (L, ws1) ∧
      L.map (nodeAt ws1) =
        ((p :: k.preorder).filter (isElem h)).map (fun a => some (some a)) ∧
      (∀ r ∈ L, ∃ l, ClassList h ws1 r = Except.ok l) ∧
      GetElementsByClassName h fuel d cls ws =
        Except.ok (L.filter (fun r =>
          match ClassList h ws1 r with
          | Except.ok l => decide (cls ∈ l)
          | Except.error _ => false), ws1) ∧
      ((∀ r ∈ L, ∀ l, ClassList h ws1 r = Except.ok l → cls ∉ l) →
        GetElementsByClassName h fuel d cls ws = Except.ok ([], ws1)) := by
  obtain ⟨L, ws1, hrun, hL, _, _⟩ := getFlatElementList_sound ht hs hf
  have hin : ∀ a ∈ (p :: k.preorder).filter (isElem h), ∃ nd, h[a]? = some nd :=
    fun a ha => treeAt_mem ht a (List.mem_of_mem_filter ha)
  have hcl : ∀ r ∈ L, ∃ l, ClassList h ws1 r = Except.ok l :=
    fun r hr => (queries_ok hL hin r hr).2.2
  have hsel : ∀ r ∈ L, classIn h ws1 cls r =
      Except.ok (match ClassList h ws1 r with
        | Except.ok l => decide (cls ∈ l)
        | Except.error _ => false) := by
    intro r hr
    obtain ⟨l, hl⟩ := hcl r hr
    simp [classIn, hl]
  have hget : GetElementsByClassName h fuel d cls ws =
      Except.ok (L.filter (fun r =>
        match ClassList h ws1 r with
        | Except.ok l => decide (cls ∈ l)
        | Except.error _ => false), ws1) := by
    simp [GetElementsByClassName, hrun, selectLoop_filter _ _ L [] hsel]
  refine ⟨L, ws1, hrun, hL, hcl, hget, ?_⟩
  intro hno
  rw [hget]
  have hnil : L.filter (fun r =>
      match ClassList h ws1 r with
      | Except.ok l => decide (cls ∈ l)
      | Except.error _ => false) = [] := by
    rw [List.filter_eq_nil_iff]
    intro r hr
    obtain ⟨l, hl⟩ := hcl r hr
    simp [hl, hno r hr l hl]
  rw [hnil]

/-- Witness of C3 on the document node of the sample document. -/
theorem GetElementsByClassName_filter_witness :
    treeAt sampleHeap 0 sampleDocKids = true ∧
    cachesSound sampleHeap (storeOf 0) 0 0 sampleDocKids = true ∧
    ∃ L ws1, getFlatElementList sampleHeap 9 true 0 (storeOf 0) = Except.ok (L, ws1) ∧
      L.map (nodeAt ws1) =
        ((0 :: sampleDocKids.preorder).filter (isElem sampleHeap)).map
          (fun a => some (some a)) ∧
      (∀ r ∈ L, ∃ l, ClassList sampleHeap ws1 r = Except.ok l) ∧
      GetElementsByClassName sampleHeap 9 0 "y" (storeOf 0) =
        Except.ok (L.filter (fun r =>
          match ClassList sampleHeap ws1 r with
          | Except.ok l => decide ("y" ∈ l)
          | Except.error _ => false), ws1) ∧
      ((∀ r ∈ L, ∀ l, ClassList sampleHeap ws1 r = Except.ok l → "y" ∉ l) →
        GetElementsByClassName sampleHeap 9 0 "y" (storeOf 0) = Except.ok ([], ws1)) :=
  ⟨by decide, by decide,
    GetElementsByClassName_filter sampleHeap (storeOf 0) 0 0 sampleDocKids 9 "y"
      (by decide) (by decide) (by decide)⟩

/-! ## Text -/

/-- C4 (what the code does): in the sample document the `div` has one child,
the element `<text>`, whose only child is the text node `deep`.  `Text(true)`
on the `div` selects by `TagName() == "text"`, so the element `<text>`, which
is not a text node, contributes its tag string: the result is `text deep`,
where the text nodes of the flattened list give `deep`. -/
theorem Text_full_takes_text_tagged_element :
    treeAt sampleHeap 5 sampleDivKids = true ∧
    (5 :: sampleDivKids.preorder).filter (isText sampleHeap) = [7] ∧
    isElem sampleHeap 6 = true ∧
    TagName sampleHeap (storeOf 6) 0 = Except.ok "text" ∧
    (Text sampleHeap 3 0 true (storeOf 5)).map Prod.fst = Except.ok "text deep" ∧
    specText sampleHeap (5 :: sampleDivKids.preorder) = "deep" := by
  decide

/-- C5 (what the code does): in the sample document no direct child of the
`div` is a text node, its only child being the element `<text>`; `Text(false)`
on the `div` selects by `TagName() == "text"` and returns `text`, not the
empty string. -/
theorem Text_direct_takes_text_tagged_element :
    treeAt sampleHeap 5 sampleDivKids = true ∧
    sampleDivKids.roots.filter (isText sampleHeap) = [] ∧
    sampleDivKids.roots.filter (isElem sampleHeap) = [6] ∧
    (Text sampleHeap 3 0 false (storeOf 5)).map Prod.fst = Except.ok "text" ∧
    specText sampleHeap sampleDivKids.roots = "" := by
  decide

/-! ## Parent, text of the absent node, tag names -/

/-- C11 (what the code does): `Parent` wraps the parent link of the node of
every wrapper of a tree node (the absent node for a root), but on a wrapper of
the absent node it dereferences the nil node instead of returning a wrapper of
the absent node. -/
theorem Parent_on_absent_fails (h : Heap) (ws : Store) (d : Ref)
    (hd : nodeAt ws d = some none) :
    Parent h d ws = Except.error Fault.nilDeref ∧
    (∀ (e : Ref) (p : Ptr) (nd : Node), nodeAt ws e = some (some p) → h[p]? = some nd →
      Parent h e ws = Except.ok (newDOM nd.Parent ws) ∧
      nodeAt (newDOM nd.Parent ws).2 (newDOM nd.Parent ws).1 = some nd.Parent) := by
  refine ⟨by simp [Parent, nodeOf_absent hd], ?_⟩
  intro e p nd he hp
  exact ⟨by simp [Parent, nodeOf_of he hp], nodeAt_newDOM _ _⟩

/-- Witness of the C11 theorem on a store holding one wrapper of the absent
node. -/
theorem Parent_on_absent_fails_witness :
    nodeAt absentStore 0 = some none ∧
    Parent sampleHeap 0 absentStore = Except.error Fault.nilDeref :=
  ⟨by decide, (Parent_on_absent_fails sampleHeap absentStore 0 (by decide)).1⟩

/-- C12 (what the code does): on a wrapper of the absent node with an unset
node cache, `Text(false)` dereferences the nil node in `childNodes` and
`Text(true)` dereferences it in `getFlatNodeList`; neither returns the empty
string. -/
theorem Text_on_absent_fails (h : Heap) (ws : Store) (d : Ref) (ce : Option (List Ref))
    (fuel : Nat) (hw : ws[d]? = some ⟨none, ce, none⟩) (hf : 1 ≤ fuel) :
    Text h fuel d false ws = Except.error Fault.nilDeref ∧
    Text h fuel d true ws = Except.error Fault.nilDeref := by
  have hd : nodeAt ws d = some none := nodeAt_some_iff.mpr ⟨_, hw, rfl⟩
  constructor
  · simp [Text, getTextNodes, childNodes, nodeOf_absent hd]
  · cases fuel with
    | zero => omega
    | succ m => simp [Text, getFlatNodeList, getW, hw, nodeOf_absent hd]

/-- Witness of the C12 theorem on a store holding one wrapper of the absent
node. -/
theorem Text_on_absent_fails_witness :
    absentStore[0]? = some ⟨none, none, none⟩ ∧
    Text sampleHeap 1 0 false absentStore = Except.error Fault.nilDeref ∧
    Text sampleHeap 1 0 true absentStore = Except.error Fault.nilDeref :=
  ⟨by decide, Text_on_absent_fails sampleHeap absentStore 0 none 1 (by decide) (by decide)⟩

/-- C13: on a wrapper of a tree node `TagName` is `text` for a text node,
`document` for a document node, `doctype` for a doctype node, and the data
string of the node, unchanged, for an element node. -/
theorem TagName_by_kind (h : Heap) (ws : Store) (d : Ref) (p : Ptr) (nd : Node)
    (hd : nodeAt ws d = some (some p)) (hp : h[p]? = some nd) :
    (nd.Type_ = NodeType.TextNode → TagName h ws d = Except.ok "text") ∧
    (nd.Type_ = NodeType.DocumentNode → TagName h ws d = Except.ok "document") ∧
    (nd.Type_ = NodeType.DoctypeNode → TagName h ws d = Except.ok "doctype") ∧
    (nd.Type_ = NodeType.ElementNode → TagName h ws d = Except.ok nd.Data) := by
  refine ⟨?_, ?_, ?_, ?_⟩ <;> intro ht <;> simp [TagName, nodeOf_of hd hp, ht]

/-- Witness of C13 on the `div` of the sample document. -/
theorem TagName_by_kind_witness :
    nodeAt (storeOf 5) 0 = some (some 5) ∧
    sampleHeap[5]? = some ⟨some 3, some 6, some 6, some 4, some 8, NodeType.ElementNode,
      "div", [⟨"", "id", "a"⟩, ⟨"", "class", "x y"⟩]⟩ ∧
    TagName sampleHeap (storeOf 5) 0 = Except.ok "div" :=
  ⟨by decide, by decide,
    (TagName_by_kind sampleHeap (storeOf 5) 0 5
      ⟨some 3, some 6, some 6, some 4, some 8, NodeType.ElementNode, "div",
        [⟨"", "id", "a"⟩, ⟨"", "class", "x y"⟩]⟩
      (by decide) (by decide)).2.2.2 (by decide)⟩

/-! ## Attribute maps -/

theorem find_filter_other_key (k k1 : String) (hk : ¬ k = k1) :
    ∀ (m : StrMap), (m.filter (fun e => e.1 != k)).find? (fun e => e.1 == k1) =
      m.find? (fun e => e.1 == k1) := by
  intro m
  induction m with
  | nil => rfl
  | cons e m ih =>
    by_cases he : e.1 = k
    · have h1 : (e.1 != k) = false := by simp [he]
      have h2 : (e.1 == k1) = false := by
        rw [he]
        simpa using hk
      rw [List.filter_cons, h1, List.find?_cons, h2]
      exact ih
    · have h1 : (e.1 != k) = true := by simpa using he
      rw [List.filter_cons, h1]
      simp only [if_true, List.find?_cons]
      rw [ih]

theorem mapIndex_mapAssign (m : StrMap) (k v k1 : String) :
    mapIndex (mapAssign m k v) k1 = if k = k1 then some v else mapIndex m k1 := by
  by_cases hk : k = k1
  · subst hk
    simp [mapIndex, mapAssign]
  · have hbeq : (k == k1) = false := by simpa using hk
    simp only [mapIndex, mapAssign, List.find?_cons, hbeq, hk, if_false]
    rw [find_filter_other_key k k1 hk]

theorem mapIndex_isSome_iff (m : StrMap) (k : String) :
    (mapIndex m k).isSome = true ↔ k ∈ m.map Prod.fst := by
  induction m with
  | nil => simp [mapIndex]
  | cons e m ih =>
    by_cases he : e.1 = k
    · simp [mapIndex, List.find?_cons, he]
    · have hne : ¬ k = e.1 := fun h1 => he h1.symm
      simp only [mapIndex, List.find?_cons, List.map_cons, List.mem_cons] at ih ⊢
      have hb : (e.1 == k) = false := by simpa using he
      rw [hb]
      simp only [hne, false_or]
      exact ih

theorem mapAssign_keys_nodup (m : StrMap) (k v : String)
    (hm : (m.map Prod.fst).Nodup) : ((mapAssign m k v).map Prod.fst).Nodup := by
  simp only [mapAssign, List.map_cons, List.nodup_cons]
  constructor
  · intro hk
    obtain ⟨e, he, hek⟩ := List.mem_map.mp hk
    have := (List.mem_filter.mp he).2
    simp [hek] at this
  · exact List.Nodup.sublist (List.Sublist.map _ (List.filter_sublist m)) hm

/-- The map built by the loop of `Attributes` from a starting map. -/
theorem foldl_mapAssign (L : List Attribute) :
    ∀ (m : StrMap), (m.map Prod.fst).Nodup →
      ((L.foldl (fun m a => mapAssign m a.Key a.Val) m).map Prod.fst).Nodup ∧
      ∀ k, mapIndex (L.foldl (fun m a => mapAssign m a.Key a.Val) m) k =
        match L.reverse.find? (fun a => a.Key == k) with
        | some a => some a.Val
        | none => mapIndex m k := by
  induction L with
  | nil => intro m hm; exact ⟨hm, fun k => by simp⟩
  | cons a L ih =>
    intro m hm
    obtain ⟨h1, h2⟩ := ih (mapAssign m a.Key a.Val) (mapAssign_keys_nodup m _ _ hm)
    refine ⟨h1, ?_⟩
    intro k
    simp only [List.foldl_cons, List.reverse_cons, List.find?_append]
    rw [h2 k, mapIndex_mapAssign]
    cases hfind : L.reverse.find? (fun a => a.Key == k) with
    | some b => simp
    | none =>
      by_cases hk : a.Key = k
      · simp [hk]
      · simp [hk]

/-- What `Attributes` returns on a wrapper of a tree node. -/
theorem Attributes_eq {h : Heap} {ws : Store} {d : Ref} {p : Ptr} {nd : Node}
    (hd : nodeAt ws d = some (some p)) (hp : h[p]? = some nd) :
    ∃ m, Attributes h ws d = Except.ok m ∧ (m.map Prod.fst).Nodup ∧
      (∀ k, mapIndex m k = (nd.Attr.reverse.find? (fun a => a.Key == k)).map Attribute.Val) ∧
      (∀ k, k ∈ m.map Prod.fst ↔ ∃ a ∈ nd.Attr, a.Key = k) := by
  obtain ⟨h1, h2⟩ := foldl_mapAssign nd.Attr [] (by simp)
  have hidx : ∀ k, mapIndex (nd.Attr.foldl (fun m a => mapAssign m a.Key a.Val) []) k =
      (nd.Attr.reverse.find? (fun a => a.Key == k)).map Attribute.Val := by
    intro k
    rw [h2 k]
    cases nd.Attr.reverse.find? (fun a => a.Key == k) <;> simp [mapIndex]
  refine ⟨_, by simp [Attributes, nodeOf_of hd hp], h1, hidx, ?_⟩
  intro k
  rw [← mapIndex_isSome_iff, hidx k]
  simp only [Option.isSome_map']
  rw [List.find?_isSome]
  simp

/-- C14: on a wrapper of a tree node with attribute list `L`, `Attributes`
returns a map with one entry per key whose keys are exactly the keys occurring
in `L` and which maps each key to the value of the last entry of `L` with that
key; it is the empty map when `L` is empty. -/
theorem Attributes_last_entry_wins (h : Heap) (ws : Store) (d : Ref) (p : Ptr)
    (nd : Node) (hd : nodeAt ws d = some (some p)) (hp : h[p]? = some nd) :
    ∃ m, Attributes h ws d = Except.ok m ∧ (m.map Prod.fst).Nodup ∧
      (∀ k, k ∈ m.map Prod.fst ↔ ∃ a ∈ nd.Attr, a.Key = k) ∧
      (∀ k, mapIndex m k =
        (nd.Attr.reverse.find? (fun a => a.Key == k)).map Attribute.Val) ∧
      (nd.Attr = [] → m = []) := by
  obtain ⟨m, h1, h2, h3, h4⟩ := Attributes_eq hd hp
  refine ⟨m, h1, h2, h4, h3, ?_⟩
  intro hnil
  cases m with
  | nil => rfl
  | cons e t =>
    obtain ⟨a, ha, _⟩ := (h4 e.1).mp (by simp)
    rw [hnil] at ha
    simp at ha

/-- Witness of C14 on the `ul` of the second sample document, whose attribute
list has the key `class` twice, with values `a` and then `b`: the map has the
two keys `class` and `id`, and `class` is mapped to `b`, the later value. -/
theorem Attributes_last_entry_wins_witness :
    nodeAt (storeOf 0) 0 = some (some 0) ∧
    ∃ m, Attributes listHeap (storeOf 0) 0 = Except.ok m ∧ (m.map Prod.fst).Nodup ∧
      (∀ k, k ∈ m.map Prod.fst ↔
        ∃ a ∈ ([⟨"", "class", "a"⟩, ⟨"", "id", "x"⟩, ⟨"", "class", "b"⟩] : List Attribute),
          a.Key = k) ∧
      mapIndex m "class" = some "b" ∧ mapIndex m "id" = some "x" ∧
      mapIndex m "href" = none :=
  match Attributes_last_entry_wins listHeap (storeOf 0) 0 0
    ⟨none, some 1, some 5, none, none, NodeType.ElementNode, "ul",
      [⟨"", "class", "a"⟩, ⟨"", "id", "x"⟩, ⟨"", "class", "b"⟩]⟩
    (by decide) (by decide) with
  | ⟨m, h1, h2, h3, h4, _⟩ =>
    ⟨by decide, m, h1, h2, h3, (h4 "class").trans (by decide),
      (h4 "id").trans (by decide), (h4 "href").trans (by decide)⟩

/-- C15: on a wrapper of a tree node, `HasAttribute(k)` is true exactly when
`k` is a key of `Attributes()`, that is when some entry of the attribute list
has key `k`, whatever its value; `HasAttributes()` is true exactly when
`Attributes()` has an entry, that is when the attribute list is non-empty. -/
theorem HasAttribute_iff_key (h : Heap) (ws : Store) (d : Ref) (p : Ptr) (nd : Node)
    (hd : nodeAt ws d = some (some p)) (hp : h[p]? = some nd) :
    ∃ m, Attributes h ws d = Except.ok m ∧
      (∀ k, ∃ b, HasAttribute h ws d k = Except.ok b ∧
        (b = true ↔ k ∈ m.map Prod.fst) ∧ (b = true ↔ ∃ a ∈ nd.Attr, a.Key = k)) ∧
      (∃ b, HasAttributes h ws d = Except.ok b ∧ (b = true ↔ m.length > 0) ∧
        (b = true ↔ nd.Attr ≠ [])) := by
  obtain ⟨m, h1, _, _, h4⟩ := Attributes_eq hd hp
  refine ⟨m, h1, ?_, ?_⟩
  · intro k
    refine ⟨(mapIndex m k).isSome, by simp [HasAttribute, h1], mapIndex_isSome_iff m k, ?_⟩
    rw [mapIndex_isSome_iff, h4 k]
  · refine ⟨decide (m.length > 0), by simp [HasAttributes, h1], by simp, ?_⟩
    simp only [decide_eq_true_eq]
    constructor
    · intro hlen hnil
      cases m with
      | nil => simp at hlen
      | cons e t =>
        obtain ⟨a, ha, _⟩ := (h4 e.1).mp (by simp)
        rw [hnil] at ha
        simp at ha
    · intro hne
      cases hattr : nd.Attr with
      | nil => exact absurd hattr hne
      | cons a t =>
        have hk : a.Key ∈ m.map Prod.fst := (h4 a.Key).mpr ⟨a, by simp [hattr], rfl⟩
        cases m with
        | nil => simp at hk
        | cons e t1 => simp

/-- Witness of C15 on the `body` of the sample document. -/
theorem HasAttribute_iff_key_witness :
    nodeAt (storeOf 3) 0 = some (some 3) ∧
    ∃ m, Attributes sampleHeap (storeOf 3) 0 = Except.ok m ∧
      (∀ k, ∃ b, HasAttribute sampleHeap (storeOf 3) 0 k = Except.ok b ∧
        (b = true ↔ k ∈ m.map Prod.fst) ∧
        (b = true ↔ ∃ a ∈ ([⟨"", "class", "main"⟩] : List Attribute), a.Key = k)) ∧
      (∃ b, HasAttributes sampleHeap (storeOf 3) 0 = Except.ok b ∧
        (b = true ↔ m.length > 0) ∧
        (b = true ↔ ([⟨"", "class", "main"⟩] : List Attribute) ≠ [])) :=
  ⟨by decide,
    HasAttribute_iff_key sampleHeap (storeOf 3) 0 3
      ⟨some 1, some 4, some 8, some 2, none, NodeType.ElementNode, "body",
        [⟨"", "class", "main"⟩]⟩
      (by decide) (by decide)⟩

/-- C17: on a wrapper of a tree node, `ClassName` is the value of the last
entry of the attribute list with key `class` and `Id` that of the last entry
with key `id`, each unchanged, and each is the empty string when no entry has
that key. -/
theorem ClassName_Id_attribute_value (h : Heap) (ws : Store) (d : Ref) (p : Ptr)
    (nd : Node) (hd : nodeAt ws d = some (some p)) (hp : h[p]? = some nd) :
    ClassName h ws d = Except.ok
      (match nd.Attr.reverse.find? (fun a => a.Key == "class") with
        | some a => a.Val
        | none => "") ∧
    Id h ws d = Except.ok
      (match nd.Attr.reverse.find? (fun a => a.Key == "id") with
        | some a => a.Val
        | none => "") ∧
    ((∀ a ∈ nd.Attr, a.Key ≠ "class") → ClassName h ws d = Except.ok "") ∧
    ((∀ a ∈ nd.Attr, a.Key ≠ "id") → Id h ws d = Except.ok "") := by
  obtain ⟨m, h1, _, h3, _⟩ := Attributes_eq hd hp
  have hget : ∀ key, getAttribute h ws d key = Except.ok
      (match nd.Attr.reverse.find? (fun a => a.Key == key) with
        | some a => a.Val
        | none => "") := by
    intro key
    simp only [getAttribute, h1, h3 key]
    cases nd.Attr.reverse.find? (fun a => a.Key == key) <;> rfl
  have hnone : ∀ key, (∀ a ∈ nd.Attr, a.Key ≠ key) →
      getAttribute h ws d key = Except.ok "" := by
    intro key hno
    rw [hget key]
    have hf : nd.Attr.reverse.find? (fun a => a.Key == key) = none := by
      rw [List.find?_eq_none]
      intro a ha
      simpa using hno a (List.mem_reverse.mp ha)
    rw [hf]
  exact ⟨hget "class", hget "id", hnone "class", hnone "id"⟩

/-- Witness of C17 on the `div` of the sample document. -/
theorem ClassName_Id_attribute_value_witness :
    nodeAt (storeOf 5) 0 = some (some 5) ∧
    ClassName sampleHeap (storeOf 5) 0 = Except.ok
      (match ([⟨"", "id", "a"⟩, ⟨"", "class", "x y"⟩] : List Attribute).reverse.find?
          (fun a => a.Key == "class") with
        | some a => a.Val
        | none => "") :=
  ⟨by decide,
    (ClassName_Id_attribute_value sampleHeap (storeOf 5) 0 5
      ⟨some 3, some 6, some 6, some 4, some 8, NodeType.ElementNode, "div",
        [⟨"", "id", "a"⟩, ⟨"", "class", "x y"⟩]⟩
      (by decide) (by decide)).1⟩

/-- A key that no attribute has reads as the empty string. -/
theorem getAttribute_missing {h : Heap} {ws : Store} {d : Ref} {p : Ptr} {nd : Node}
    (hd : nodeAt ws d = some (some p)) (hp : h[p]? = some nd) (key : String)
    (hno : ∀ a ∈ nd.Attr, a.Key ≠ key) : getAttribute h ws d key = Except.ok "" := by
  obtain ⟨m, h1, _, h3, _⟩ := Attributes_eq hd hp
  have hf : nd.Attr.reverse.find? (fun a => a.Key == key) = none := by
    rw [List.find?_eq_none]
    intro a ha
    simpa using hno a (List.mem_reverse.mp ha)
  simp [getAttribute, h1, h3 key, hf]

/-! ## Class lists -/

theorem splitChars_ne_nil (sep : Char) (cs : List Char) : splitChars sep cs ≠ [] := by
  cases cs with
  | nil => simp [splitChars]
  | cons c cs =>
    simp only [splitChars]
    split_ifs
    · simp
    · cases splitChars sep cs <;> simp

/-- Joining the pieces of a split with the separator gives back the input. -/
theorem joinChars_splitChars (sep : Char) :
    ∀ cs : List Char, joinChars sep (splitChars sep cs) = cs := by
  intro cs
  induction cs with
  | nil => simp [splitChars, joinChars]
  | cons c cs ih =>
    have hne := splitChars_ne_nil sep cs
    cases hs : splitChars sep cs with
    | nil => exact absurd hs hne
    | cons w rest =>
      rw [hs] at ih
      by_cases hc : c = sep
      · simp only [splitChars, hc, if_true, hs, joinChars, List.nil_append, ih]
      · simp only [splitChars, hc, if_false, hs]
        cases rest with
        | nil =>
          simp only [joinChars] at ih ⊢
          rw [ih]
        | cons v rest1 =>
          simp only [joinChars, List.cons_append] at ih ⊢
          rw [ih]

/-- No piece of a split contains the separator. -/
theorem splitChars_no_sep (sep : Char) :
    ∀ cs : List Char, ∀ w ∈ splitChars sep cs, sep ∉ w := by
  intro cs
  induction cs with
  | nil => intro w hw; simp [splitChars] at hw; simp [hw]
  | cons c cs ih =>
    intro w hw
    by_cases hc : c = sep
    · simp only [splitChars, hc, if_true, List.mem_cons] at hw
      rcases hw with hw | hw
      · simp [hw]
      · exact ih w hw
    · simp only [splitChars, hc, if_false] at hw
      cases hs : splitChars sep cs with
      | nil => exact absurd hs (splitChars_ne_nil sep cs)
      | cons v rest =>
        rw [hs] at hw ih
        simp only [List.mem_cons] at hw
        rcases hw with hw | hw
        · rw [hw]
          intro hmem
          simp only [List.mem_cons] at hmem
          rcases hmem with hmem | hmem
          · exact hc hmem.symm
          · exact ih v (List.mem_cons_self v rest) hmem
        · exact ih w (List.mem_cons_of_mem v hw)

/-- A split has one piece more than the input has separators. -/
theorem splitChars_length (sep : Char) :
    ∀ cs : List Char, (splitChars sep cs).length = 1 + cs.count sep := by
  intro cs
  induction cs with
  | nil => simp [splitChars]
  | cons c cs ih =>
    by_cases hc : c = sep
    · simp only [splitChars, hc, if_true, List.length_cons, ih, List.count_cons_self]
      omega
    · have hcount : (c :: cs).count sep = cs.count sep := by
        rw [List.count_cons]
        simp [hc]
      simp only [splitChars, hc, if_false, hcount]
      cases hs : splitChars sep cs with
      | nil => exact absurd hs (splitChars_ne_nil sep cs)
      | cons v rest =>
        rw [hs] at ih
        simpa using ih

/-- C16: on a wrapper of a tree node, `ClassList` is `ClassName` split at every
space character: joining it with single spaces gives back `ClassName`, no
entry contains a space, and it has one entry more than `ClassName` has
spaces; so `a b c` gives the three entries `a`, `b`, `c`, and a node without
a `class` attribute gives the one-entry list holding the empty string. -/
theorem ClassList_splits_ClassName (h : Heap) (ws : Store) (d : Ref) (p : Ptr)
    (nd : Node) (hd : nodeAt ws d = some (some p)) (hp : h[p]? = some nd) :
    ∃ s l, ClassName h ws d = Except.ok s ∧ ClassList h ws d = Except.ok l ∧
      joinSpace l = s ∧ (∀ w ∈ l, ' ' ∉ w.data) ∧
      l.length = 1 + s.data.count ' ' ∧ l ≠ [] ∧
      (s = "a b c" → l = ["a", "b", "c"]) ∧
      ((∀ a ∈ nd.Attr, a.Key ≠ "class") → l = [""]) := by
  obtain ⟨s, hs⟩ := getAttribute_ok (nodeOf_of hd hp) "class"
  have hcn : ClassName h ws d = Except.ok s := hs
  refine ⟨s, splitSpace s, hcn, by simp [ClassList, hcn], ?_, ?_, ?_, ?_, ?_, ?_⟩
  · simp only [joinSpace, splitSpace, List.map_map]
    have hid : (String.data ∘ String.mk) = id := by
      funext x
      rfl
    rw [hid, List.map_id, joinChars_splitChars]
  · intro w hw
    simp only [splitSpace, List.mem_map] at hw
    obtain ⟨v, hv, hvw⟩ := hw
    rw [← hvw]
    exact splitChars_no_sep ' ' s.data v hv
  · simp [splitSpace, splitChars_length]
  · simp [splitSpace, splitChars_ne_nil]
  · intro hsabc
    subst hsabc
    decide
  · intro hno
    have hempty : s = "" := by
      have h1 := getAttribute_missing hd hp "class" hno
      rw [hs] at h1
      exact Except.ok.inj h1
    subst hempty
    decide

/-- Witness of C16 on the `div` of the sample document, of class `x y`. -/
theorem ClassList_splits_ClassName_witness :
    nodeAt (storeOf 5) 0 = some (some 5) ∧
    ∃ s l, ClassName sampleHeap (storeOf 5) 0 = Except.ok s ∧
      ClassList sampleHeap (storeOf 5) 0 = Except.ok l ∧
      joinSpace l = s ∧ (∀ w ∈ l, ' ' ∉ w.data) ∧
      l.length = 1 + s.data.count ' ' ∧ l ≠ [] ∧
      (s = "a b c" → l = ["a", "b", "c"]) ∧
      ((∀ a ∈ ([⟨"", "id", "a"⟩, ⟨"", "class", "x y"⟩] : List Attribute),
        a.Key ≠ "class") → l = [""]) :=
  ⟨by decide,
    ClassList_splits_ClassName sampleHeap (storeOf 5) 0 5
      ⟨some 3, some 6, some 6, some 4, some 8, NodeType.ElementNode, "div",
        [⟨"", "id", "a"⟩, ⟨"", "class", "x y"⟩]⟩
      (by decide) (by decide)⟩

/-! ## What the caching calls write -/

theorem getElem_setFlatNodeList_ne (ws : Store) {d r : Ref} (l : List Ref) (hne : r ≠ d) :
    (setFlatNodeList ws d l)[r]? = ws[r]? := by
  unfold setFlatNodeList
  cases ws[d]? with
  | none => rfl
  | some w => exact List.getElem?_set_ne (fun hdr => hne hdr.symm)

theorem getElem_setFlatElementList_ne (ws : Store) {d r : Ref} (l : List Ref)
    (hne : r ≠ d) : (setFlatElementList ws d l)[r]? = ws[r]? := by
  unfold setFlatElementList
  cases ws[d]? with
  | none => rfl
  | some w => exact List.getElem?_set_ne (fun hdr => hne hdr.symm)

/-- Entries of a list read as fresh wrappers of given nodes are fresh wrappers
of one of them. -/
theorem cells_of_mem {ws : Store} : ∀ (L : List Ref) (addrs : List Ptr),
    L.map (fun r => ws[r]?) = addrs.map (fun a => some (⟨some a, none, none⟩ : DOM)) →
    ∀ r ∈ L, ∃ a ∈ addrs, ws[r]? = some ⟨some a, none, none⟩ := by
  intro L
  induction L with
  | nil => intro _ _ r hr; simp at hr
  | cons x L ih =>
    intro addrs hm r hr
    cases addrs with
    | nil => simp at hm
    | cons a t =>
      simp only [List.map_cons, List.cons.injEq] at hm
      simp only [List.mem_cons] at hr
      rcases hr with hr | hr
      · exact ⟨a, List.mem_cons_self a t, hr ▸ hm.1⟩
      · obtain ⟨b, hb, hrb⟩ := ih t hm.2 r hr
        exact ⟨b, List.mem_cons_of_mem a hb, hrb⟩

/-- The caching call of `getFlatNodeList` on a wrapper with an unset node
cache: it sets that cache of the receiver to the returned list, whose other
entries are new wrappers with both caches unset, and leaves every other
wrapper of the store as it was. -/
theorem getFlatNodeList_cells {h : Heap} {p : Ptr} {k : Forest} {ws : Store} {d : Ref}
    {ce : Option (List Ref)} {fuel : Nat} (ht : treeAt h p k = true)
    (hw : ws[d]? = some ⟨some p, ce, none⟩) (hf : k.size + 1 ≤ fuel) :
    ∃ L ws1, getFlatNodeList h fuel true d ws = Except.ok (d :: L, ws1) ∧
      ws1[d]? = some ⟨some p, ce, some (d :: L)⟩ ∧
      (∀ r ∈ L, ∃ a ∈ k.preorder, ws1[r]? = some ⟨some a, none, none⟩) ∧
      (∀ r ∈ L, ws.length ≤ r) ∧
      (∀ r, r < ws.length → r ≠ d → ws1[r]? = ws[r]?) ∧
      (d :: L).map (nodeAt ws1) = (p :: k.preorder).map (fun a => some (some a)) := by
  obtain ⟨L, F, hrun, hcells, hge⟩ := getFlatNodeList_fresh true ht hw hf
  simp only [if_true] at hrun
  have hdlt : d < ws.length := (List.getElem?_eq_some.mp hw).1
  have hwF : (ws ++ F)[d]? = some ⟨some p, ce, none⟩ := getElem_append_keep hw F
  have hcellL : ∀ r ∈ L, ∃ a ∈ k.preorder,
      (setFlatNodeList (ws ++ F) d (d :: L))[r]? = some ⟨some a, none, none⟩ := by
    intro r hr
    obtain ⟨a, ha, hra⟩ := cells_of_mem L _ hcells r hr
    have hne : r ≠ d := by
      intro hrd
      have hle := hge r hr
      rw [hrd] at hle
      exact Nat.lt_irrefl _ (Nat.lt_of_lt_of_le hdlt hle)
    exact ⟨a, ha, by rw [getElem_setFlatNodeList_ne _ _ hne]; exact hra⟩
  have hL : L.map (nodeAt (ws ++ F)) = k.preorder.map (fun a => some (some a)) := by
    have h1 := congrArg (List.map (Option.map DOM.node)) hcells
    simpa [nodeAt, List.map_map, Function.comp_def] using h1
  have hkeep : ∀ r o, nodeAt (ws ++ F) r = some o →
      nodeAt (setFlatNodeList (ws ++ F) d (d :: L)) r = some o := by
    intro r o hr
    rw [nodeAt_setFlatNodeList]
    exact hr
  refine ⟨L, _, hrun, getElem_setFlatNodeList (d :: L) hwF, hcellL, hge, ?_, ?_⟩
  · intro r hr hne
    rw [getElem_setFlatNodeList_ne _ _ hne, List.getElem?_append_left hr]
  · simp only [List.map_cons, List.cons.injEq]
    exact ⟨hkeep d _ (nodeAt_some_iff.mpr ⟨_, hwF, rfl⟩), map_nodeAt_keep hkeep L _ hL⟩

/-- The caching call of `getFlatElementList` on a wrapper with both caches
unset: it sets both caches of the receiver, the element cache to the returned
list, a sublist of the node cache; the other entries of the node cache are new
wrappers with both caches unset; every other wrapper of the store is as it
was. -/
theorem getFlatElementList_cells {h : Heap} {p : Ptr} {k : Forest} {ws : Store}
    {d : Ref} {fuel : Nat} (ht : treeAt h p k = true)
    (hw : ws[d]? = some ⟨some p, none, none⟩) (hf : k.size + 1 ≤ fuel) :
    ∃ E L ws1, getFlatElementList h fuel true d ws = Except.ok (E, ws1) ∧
      ws1[d]? = some ⟨some p, some E, some (d :: L)⟩ ∧
      E.Sublist (d :: L) ∧
      (∀ r ∈ L, ∃ a ∈ k.preorder, ws1[r]? = some ⟨some a, none, none⟩) ∧
      (∀ r ∈ L, ws.length ≤ r) ∧
      (∀ r, r < ws.length → r ≠ d → ws1[r]? = ws[r]?) ∧
      (d :: L).map (nodeAt ws1) = (p :: k.preorder).map (fun a => some (some a)) ∧
      E.map (nodeAt ws1) =
        ((p :: k.preorder).filter (isElem h)).map (fun a => some (some a)) := by
  obtain ⟨L, wsA, hrun, hdA, hcellL, hge, hold, hnodes⟩ := getFlatNodeList_cells ht hw hf
  obtain ⟨E, hsel, hE, hsub⟩ := select_elements hnodes (treeAt_mem ht)
  have hdlt : d < ws.length := (List.getElem?_eq_some.mp hw).1
  have hkeep : ∀ r o, nodeAt wsA r = some o →
      nodeAt (setFlatElementList wsA d E) r = some o := by
    intro r o hr
    rw [nodeAt_setFlatElementList]
    exact hr
  refine ⟨E, L, setFlatElementList wsA d E, ?_, getElem_setFlatElementList E hdA, hsub,
    ?_, hge, ?_, map_nodeAt_keep hkeep _ _ hnodes, map_nodeAt_keep hkeep _ _ hE⟩
  · simp [getFlatElementList, getW, hw, hrun, hsel]
  · intro r hr
    obtain ⟨a, ha, hra⟩ := hcellL r hr
    have hne : r ≠ d := by
      intro hrd
      have hle := hge r hr
      rw [hrd] at hle
      exact Nat.lt_irrefl _ (Nat.lt_of_lt_of_le hdlt hle)
    exact ⟨a, ha, by rw [getElem_setFlatElementList_ne _ _ hne]; exact hra⟩
  · intro r hr hne
    rw [getElem_setFlatElementList_ne _ _ hne]
    exact hold r hr hne

/-- A call of `getFlatElementList` on a wrapper whose element cache is set
returns the cache and writes nothing. -/
theorem getFlatElementList_cached (h : Heap) {ws : Store} {d : Ref} {w : DOM}
    {E : List Ref} (fuel : Nat) (sc : Bool) (hw : ws[d]? = some w)
    (hc : w.flatElementList = some E) :
    getFlatElementList h fuel sc d ws = Except.ok (E, ws) := by
  simp [getFlatElementList, getW, hw, hc]

/-- A call of `getFlatNodeList` on a wrapper whose node cache is set returns
the cache and writes nothing. -/
theorem getFlatNodeList_cached (h : Heap) {ws : Store} {d : Ref} {w : DOM}
    {L : List Ref} (fuel : Nat) (sc : Bool) (hw : ws[d]? = some w)
    (hc : w.flatNodeList = some L) :
    getFlatNodeList h (fuel + 1) sc d ws = Except.ok (L, ws) := by
  simp [getFlatNodeList, getW, hw, hc]

/-- The write loop of `Text` returns on wrappers of heap nodes. -/
theorem writeLoop_ok {h : Heap} {ws : Store} : ∀ (nodes : List Ref) (sb : String),
    (∀ r ∈ nodes, ∃ nd, nodeOf h ws r = Except.ok nd) →
    ∃ s, writeLoop h ws nodes sb = Except.ok s := by
  intro nodes
  induction nodes with
  | nil => intro sb _; exact ⟨sb, rfl⟩
  | cons x nodes ih =>
    intro sb hok
    obtain ⟨nd, hnd⟩ := hok x (List.mem_cons_self x nodes)
    obtain ⟨s, hs⟩ := ih (sb ++ (nd.Data ++ " "))
      (fun r hr => hok r (List.mem_cons_of_mem x hr))
    exact ⟨s, by simp [writeLoop, hnd, hs]⟩

/-- The call `Text(true)` on a wrapper with an unset node cache returns and
leaves the store that `getFlatNodeList(true)` leaves. -/
theorem Text_full_store {h : Heap} {p : Ptr} {k : Forest} {ws : Store} {d : Ref}
    {fuel : Nat} {L : List Ref} {ws1 : Store}
    (ht : treeAt h p k = true)
    (hrun : getFlatNodeList h fuel true d ws = Except.ok (d :: L, ws1))
    (hnodes : (d :: L).map (nodeAt ws1) = (p :: k.preorder).map (fun a => some (some a))) :
    ∃ s, Text h fuel d true ws = Except.ok (s, ws1) := by
  have hin := treeAt_mem ht
  have hsel : ∀ r ∈ d :: L, tagIs h ws1 "text" r =
      Except.ok (decide (TagName h ws1 r = Except.ok "text")) := by
    intro r hr
    obtain ⟨s, hs1⟩ := (queries_ok hnodes hin r hr).2.1
    simp [tagIs, hs1]
  have hwr : ∀ r ∈ (d :: L).filter (fun r => decide (TagName h ws1 r = Except.ok "text")),
      ∃ nd, nodeOf h ws1 r = Except.ok nd := by
    intro r hr
    obtain ⟨a, ha, hra⟩ := nodeAt_of_mem _ _ hnodes r (List.mem_of_mem_filter hr)
    obtain ⟨nd, hnd⟩ := hin a ha
    exact ⟨nd, nodeOf_of hra hnd⟩
  obtain ⟨s, hs⟩ := writeLoop_ok _ "" hwr
  refine ⟨TrimSpace s, ?_⟩
  simp only [Text, Bool.not_true, Bool.false_eq_true, if_false, hrun,
    selectLoop_filter _ _ (d :: L) [] hsel, List.nil_append, hs]

/-! ## The shape of the flattened list -/

theorem Forest.trees_roots (f : Forest) : f.trees.map Prod.fst = f.roots := by
  induction f with
  | nil => rfl
  | cons p k r _ ihr => simp [Forest.trees, Forest.roots, ihr]

/-- The pre-order of a forest is the concatenation, over its trees in order, of
the root followed by the pre-order of the forest below it. -/
theorem Forest.preorder_trees (f : Forest) :
    f.preorder = (f.trees.map (fun t => t.1 :: t.2.preorder)).flatten := by
  induction f with
  | nil => rfl
  | cons p k r _ ihr => simp [Forest.trees, Forest.preorder, ihr]

theorem treeAt_intro {h : Heap} {p : Ptr} {k : Forest} {nd : Node}
    (hp : h[p]? = some nd) (hfc : nd.FirstChild = k.first) (hlc : nd.LastChild = k.last)
    (hl : linked h (some p) none k = true) (hn : (p :: k.preorder).Nodup) :
    treeAt h p k = true := by
  simp [treeAt, hp, hfc, hlc, hl, hn]

/-- Every tree of a linked forest without repeated address is a well-formed
subtree, smaller than the forest. -/
theorem trees_treeAt {h : Heap} : ∀ (f : Forest) (parent prev : Option Ptr),
    linked h parent prev f = true → f.preorder.Nodup →
    ∀ t ∈ f.trees, treeAt h t.1 t.2 = true ∧ t.2.size + 1 ≤ f.size := by
  intro f
  induction f with
  | nil => intro _ _ _ _ t ht; simp [Forest.trees] at ht
  | cons p k r _ ihr =>
    intro parent prev hl hn t ht
    obtain ⟨⟨nd, hp, _, _, _, hfc, hlc⟩, hlk, hlr⟩ := linked_cons hl
    simp only [Forest.preorder] at hn
    have hpk : (p :: k.preorder).Nodup :=
      List.Nodup.sublist (List.Sublist.cons₂ p (List.sublist_append_left _ _)) hn
    have hr : r.preorder.Nodup :=
      List.Nodup.sublist (List.Sublist.cons p (List.sublist_append_right _ _)) hn
    simp only [Forest.trees, List.mem_cons] at ht
    rcases ht with ht | ht
    · subst ht
      exact ⟨treeAt_intro hp hfc hlc hlk hpk, by simp only [Forest.size]; omega⟩
    · obtain ⟨h1, h2⟩ := ihr parent (some p) hlr hr t ht
      exact ⟨h1, by simp only [Forest.size]; omega⟩

/-- The method `getFlatNodeList`, with or without caching, on a wrapper with
sound caches over a well-formed subtree returns wrappers of the nodes of the
subtree in pre-order. -/
theorem getFlatNodeList_nodes {h : Heap} {p : Ptr} {k : Forest} {ws : Store} {d : Ref}
    {fuel : Nat} (sc : Bool) (ht : treeAt h p k = true)
    (hs : cachesSound h ws d p k = true) (hf : k.size + 1 ≤ fuel) :
    ∃ L ws1, getFlatNodeList h fuel sc d ws = Except.ok (L, ws1) ∧
      L.map (nodeAt ws1) = (p :: k.preorder).map (fun a => some (some a)) := by
  cases sc with
  | true =>
    obtain ⟨L, ws1, h1, h2, _⟩ := getFlatNodeList_sound ht hs hf
    exact ⟨L, ws1, h1, h2⟩
  | false =>
    obtain ⟨w, hw, hn, hcn, _⟩ := cachesSound_iff.mp hs
    rcases w with ⟨nd, ce, cn⟩
    simp only at hn hcn
    subst hn
    cases cn with
    | some l =>
      cases fuel with
      | zero => omega
      | succ m => exact ⟨l, ws, getFlatNodeList_cached h m false hw rfl, hcn l rfl⟩
    | none =>
      obtain ⟨L, F, hrun, hcells, _⟩ := getFlatNodeList_fresh false ht hw hf
      simp only [Bool.false_eq_true, if_false] at hrun
      have hL : L.map (nodeAt (ws ++ F)) = k.preorder.map (fun a => some (some a)) := by
        have h1 := congrArg (List.map (Option.map DOM.node)) hcells
        simpa [nodeAt, List.map_map, Function.comp_def] using h1
      refine ⟨d :: L, _, hrun, ?_⟩
      simp only [List.map_cons, List.cons.injEq]
      exact ⟨nodeAt_some_iff.mpr ⟨_, getElem_append_keep hw F, rfl⟩, hL⟩

/-- The method `getFlatElementList`, with or without caching, on a wrapper with
sound caches over a well-formed subtree returns wrappers of the element nodes
of the subtree in pre-order. -/
theorem getFlatElementList_nodes {h : Heap} {p : Ptr} {k : Forest} {ws : Store}
    {d : Ref} {fuel : Nat} (sc : Bool) (ht : treeAt h p k = true)
    (hs : cachesSound h ws d p k = true) (hf : k.size + 1 ≤ fuel) :
    ∃ E ws1, getFlatElementList h fuel sc d ws = Except.ok (E, ws1) ∧
      E.map (nodeAt ws1) =
        ((p :: k.preorder).filter (isElem h)).map (fun a => some (some a)) := by
  cases sc with
  | true =>
    obtain ⟨E, ws1, h1, h2, _⟩ := getFlatElementList_sound ht hs hf
    exact ⟨E, ws1, h1, h2⟩
  | false =>
    obtain ⟨w, hw, _, _, hce⟩ := cachesSound_iff.mp hs
    cases hcache : w.flatElementList with
    | some l => exact ⟨l, ws, getFlatElementList_cached h fuel false hw hcache, hce l hcache⟩
    | none =>
      obtain ⟨Ln, ws1, hrun, hLn, _⟩ := getFlatNodeList_sound ht hs hf
      obtain ⟨E, hsel, hE, _⟩ := select_elements hLn (treeAt_mem ht)
      exact ⟨E, ws1, by simp [getFlatElementList, getW, hw, hcache, hrun, hsel], hE⟩

/-- C19: on a wrapper with sound caches of a node of a well-formed tree,
`getFlatNodeList` returns (enough fuel given) wrappers of the nodes of the
subtree in pre-order: the node of the receiver first, then, for each direct
child in document order, the flattened list of that child, which the method
returns on the child as well; every node of the subtree occurs once and no
other node occurs; on a wrapper with unset node cache the first entry is the
receiver itself.  `getFlatElementList` returns wrappers of the element nodes
of that list, in the same order. -/
theorem getFlatNodeList_is_preorder (h : Heap) (ws : Store) (d : Ref) (p : Ptr)
    (k : Forest) (fuel : Nat) (sc : Bool) (ht : treeAt h p k = true)
    (hs : cachesSound h ws d p k = true) (hf : k.size + 1 ≤ fuel) :
    (∃ L ws1, getFlatNodeList h fuel sc d ws = Except.ok (L, ws1) ∧
      L.map (nodeAt ws1) = (p :: k.preorder).map (fun a => some (some a)) ∧
      L.length = k.size + 1 ∧
      (∀ ce, ws[d]? = some ⟨some p, ce, none⟩ → L.head? = some d)) ∧
    (p :: k.preorder).Nodup ∧
    k.preorder = (k.trees.map (fun t => t.1 :: t.2.preorder)).flatten ∧
    k.trees.map Prod.fst = k.roots ∧
    (∀ t ∈ k.trees, treeAt h t.1 t.2 = true ∧
      ∀ (e : Ref) (ws0 : Store), cachesSound h ws0 e t.1 t.2 = true →
        ∃ Lc wsc, getFlatNodeList h fuel false e ws0 = Except.ok (Lc, wsc) ∧
          Lc.map (nodeAt wsc) = (t.1 :: t.2.preorder).map (fun a => some (some a))) ∧
    (∃ E ws2, getFlatElementList h fuel sc d ws = Except.ok (E, ws2) ∧
      E.map (nodeAt ws2) =
        ((p :: k.preorder).filter (isElem h)).map (fun a => some (some a))) := by
  obtain ⟨_, hl, hnd⟩ := treeAt_unfold ht
  obtain ⟨L, ws1, hrun, hL⟩ := getFlatNodeList_nodes sc ht hs hf
  refine ⟨⟨L, ws1, hrun, hL, ?_, ?_⟩, hnd, Forest.preorder_trees k, Forest.trees_roots k,
    ?_, getFlatElementList_nodes sc ht hs hf⟩
  · have hlen := congrArg List.length hL
    simp only [List.length_map, List.length_cons, Forest.preorder_length] at hlen
    exact hlen
  · intro ce hw
    obtain ⟨L1, F, hrun1, _, _⟩ := getFlatNodeList_fresh sc ht hw hf
    rw [hrun1] at hrun
    have hLL : d :: L1 = L := (Prod.mk.inj (Except.ok.inj hrun)).1
    rw [← hLL]
    rfl
  · intro t htm
    obtain ⟨ht1, ht2⟩ := trees_treeAt k _ _ hl (List.nodup_cons.mp hnd).2 t htm
    refine ⟨ht1, ?_⟩
    intro e ws0 hse
    exact getFlatNodeList_nodes false ht1 hse (by omega)

/-- Witness of C19 on the document node of the sample document. -/
theorem getFlatNodeList_is_preorder_witness :
    treeAt sampleHeap 0 sampleDocKids = true ∧
    cachesSound sampleHeap (storeOf 0) 0 0 sampleDocKids = true ∧
    ∃ L ws1, getFlatNodeList sampleHeap 9 true 0 (storeOf 0) = Except.ok (L, ws1) ∧
      L.map (nodeAt ws1) = (0 :: sampleDocKids.preorder).map (fun a => some (some a)) ∧
      L.length = sampleDocKids.size + 1 ∧
      (∀ ce, (storeOf 0)[0]? = some ⟨some 0, ce, none⟩ → L.head? = some 0) :=
  ⟨by decide, by decide,
    (getFlatNodeList_is_preorder sampleHeap (storeOf 0) 0 0 sampleDocKids 9 true
      (by decide) (by decide) (by decide)).1⟩

/-! ## The caching calls on any wrapper with sound caches -/

/-- Wrappers listed as wrappers of given nodes are cells of the store. -/
theorem ref_lt_of_mem {ws : Store} {L : List Ref} {addrs : List Ptr}
    (hm : L.map (nodeAt ws) = addrs.map (fun a => some (some a))) :
    ∀ r ∈ L, r < ws.length := by
  intro r hr
  obtain ⟨a, _, hra⟩ := nodeAt_of_mem _ _ hm r hr
  obtain ⟨w, hw, _⟩ := nodeAt_some_iff.mp hra
  exact (List.getElem?_eq_some.mp hw).1

theorem cachesOrdered_iff {ws : Store} {d : Ref} {w : DOM} (hw : ws[d]? = some w) :
    cachesOrdered ws d = true ↔ (w.flatElementList = none ∨ ∃ l, w.flatNodeList = some l) := by
  rcases w with ⟨nd, ce, cn⟩
  cases ce <;> cases cn <;> simp [cachesOrdered, hw]

/-- The caching call of `getFlatNodeList` on a wrapper with sound caches: it
returns the node cache when that is set and writes nothing; otherwise it sets
the node cache to the returned list, which is the receiver followed by new
wrappers with unset caches; the element cache of the receiver and every other
wrapper of the store are as they were. -/
theorem getFlatNodeList_state {h : Heap} {p : Ptr} {k : Forest} {ws : Store} {d : Ref}
    {fuel : Nat} (ht : treeAt h p k = true) (hs : cachesSound h ws d p k = true)
    (hf : k.size + 1 ≤ fuel) :
    ∃ Ln ws1 w, ws[d]? = some w ∧
      getFlatNodeList h fuel true d ws = Except.ok (Ln, ws1) ∧
      ws1[d]? = some ⟨some p, w.flatElementList, some Ln⟩ ∧
      Ln.map (nodeAt ws1) = (p :: k.preorder).map (fun a => some (some a)) ∧
      (∀ l, w.flatNodeList = some l → Ln = l ∧ ws1 = ws) ∧
      (∀ r ∈ Ln, ws.length ≤ r → ∃ a, ws1[r]? = some ⟨some a, none, none⟩) ∧
      (∀ r, r < ws.length → r ≠ d → ws1[r]? = ws[r]?) ∧
      (w.flatNodeList = none → ∃ L, Ln = d :: L ∧ ∀ r ∈ L, ws.length ≤ r ∧ r ≠ d) := by
  obtain ⟨w, hw, hn, hcn, _⟩ := cachesSound_iff.mp hs
  rcases w with ⟨nd, ce, cn⟩
  simp only at hn hcn
  subst hn
  have hdlt : d < ws.length := (List.getElem?_eq_some.mp hw).1
  cases cn with
  | some l =>
    cases fuel with
    | zero => omega
    | succ m =>
      refine ⟨l, ws, _, hw, getFlatNodeList_cached h m true hw rfl, hw, hcn l rfl, ?_, ?_,
        fun r _ _ => rfl, ?_⟩
      · intro l1 hl1
        simp only [Option.some.injEq] at hl1
        exact ⟨hl1, rfl⟩
      · intro r hr hle
        have hlt := ref_lt_of_mem (hcn l rfl) r hr
        exact absurd hlt (Nat.not_lt.mpr hle)
      · intro hnone
        simp at hnone
  | none =>
    obtain ⟨L, ws1, hrun, hd1, hcells, hge, hold, hnodes⟩ := getFlatNodeList_cells ht hw hf
    refine ⟨d :: L, ws1, _, hw, hrun, hd1, hnodes, ?_, ?_, hold, ?_⟩
    · intro l hl
      simp at hl
    · intro r hr hle
      simp only [List.mem_cons] at hr
      rcases hr with hr | hr
      · rw [hr] at hle
        exact absurd hdlt (Nat.not_lt.mpr hle)
      · obtain ⟨a, _, hra⟩ := hcells r hr
        exact ⟨a, hra⟩
    · intro _
      refine ⟨L, rfl, ?_⟩
      intro r hr
      refine ⟨hge r hr, ?_⟩
      intro hrd
      have hle := hge r hr
      rw [hrd] at hle
      exact absurd hdlt (Nat.not_lt.mpr hle)

/-- The caching call of `getFlatElementList` on a wrapper with sound caches
whose element cache is set only together with its node cache: afterwards both
caches of the receiver are set, a cache that was set is what it was, the
wrappers the call created have unset caches, and every other wrapper of the
store is as it was. -/
theorem getFlatElementList_state {h : Heap} {p : Ptr} {k : Forest} {ws : Store}
    {d : Ref} {fuel : Nat} (ht : treeAt h p k = true)
    (hs : cachesSound h ws d p k = true) (ho : cachesOrdered ws d = true)
    (hf : k.size + 1 ≤ fuel) :
    ∃ E Ln ws1 w, ws[d]? = some w ∧
      getFlatElementList h fuel true d ws = Except.ok (E, ws1) ∧
      ws1[d]? = some ⟨some p, some E, some Ln⟩ ∧
      E.map (nodeAt ws1) =
        ((p :: k.preorder).filter (isElem h)).map (fun a => some (some a)) ∧
      Ln.map (nodeAt ws1) = (p :: k.preorder).map (fun a => some (some a)) ∧
      (∀ l, w.flatElementList = some l → E = l ∧ ws1 = ws) ∧
      (∀ l, w.flatNodeList = some l → Ln = l) ∧
      (∀ r ∈ Ln, ws.length ≤ r → ∃ a, ws1[r]? = some ⟨some a, none, none⟩) ∧
      (∀ r ∈ E, ws.length ≤ r → ∃ a, ws1[r]? = some ⟨some a, none, none⟩) ∧
      (∀ r, r < ws.length → r ≠ d → ws1[r]? = ws[r]?) ∧
      (w.flatNodeList = none → ∃ L, Ln = d :: L ∧ E.Sublist (d :: L) ∧
        ∀ r ∈ L, ws.length ≤ r ∧ r ≠ d) := by
  obtain ⟨w, hw, hn, hcn, hce⟩ := cachesSound_iff.mp hs
  have hdlt : d < ws.length := (List.getElem?_eq_some.mp hw).1
  cases hcache : w.flatElementList with
  | some E0 =>
    have hord := (cachesOrdered_iff hw).mp ho
    rw [hcache] at hord
    obtain ⟨Ln0, hLn0⟩ : ∃ l, w.flatNodeList = some l := by
      rcases hord with hord | hord
      · simp at hord
      · exact hord
    have hwd : ws[d]? = some ⟨some p, some E0, some Ln0⟩ := by
      rw [hw]
      rcases w with ⟨nd, ce, cn⟩
      simp only at hn hcache hLn0
      rw [hn, hcache, hLn0]
    refine ⟨E0, Ln0, ws, w, hw, getFlatElementList_cached h fuel true hw hcache, hwd,
      hce E0 hcache, hcn Ln0 hLn0, ?_, ?_, ?_, ?_, fun r _ _ => rfl, ?_⟩
    · intro l hl
      rw [hcache] at hl
      simp only [Option.some.injEq] at hl
      exact ⟨hl, rfl⟩
    · intro l hl
      rw [hLn0] at hl
      simpa using hl
    · intro r hr hle
      exact absurd (ref_lt_of_mem (hcn Ln0 hLn0) r hr) (Nat.not_lt.mpr hle)
    · intro r hr hle
      exact absurd (ref_lt_of_mem (hce E0 hcache) r hr) (Nat.not_lt.mpr hle)
    · intro hnone
      rw [hLn0] at hnone
      simp at hnone
  | none =>
    obtain ⟨Ln, wsA, w0, hw0, hrun, hdA, hnodes, hsame, hfreshA, holdA, hhead⟩ :=
      getFlatNodeList_state ht hs hf
    have hww : w0 = w := by
      rw [hw] at hw0
      exact (Option.some.inj hw0).symm
    subst hww
    rw [hcache] at hdA
    obtain ⟨E, hsel, hE, hsub⟩ := select_elements hnodes (treeAt_mem ht)
    have hkeep : ∀ r o, nodeAt wsA r = some o →
        nodeAt (setFlatElementList wsA d E) r = some o := by
      intro r o hr
      rw [nodeAt_setFlatElementList]
      exact hr
    have hne : ∀ r, ws.length ≤ r → r ≠ d := by
      intro r hle hrd
      rw [hrd] at hle
      exact absurd hdlt (Nat.not_lt.mpr hle)
    have hfresh : ∀ r ∈ Ln, ws.length ≤ r →
        ∃ a, (setFlatElementList wsA d E)[r]? = some ⟨some a, none, none⟩ := by
      intro r hr hle
      obtain ⟨a, hra⟩ := hfreshA r hr hle
      exact ⟨a, by rw [getElem_setFlatElementList_ne _ _ (hne r hle)]; exact hra⟩
    refine ⟨E, Ln, setFlatElementList wsA d E, w0, hw, ?_,
      getElem_setFlatElementList E hdA, map_nodeAt_keep hkeep _ _ hE,
      map_nodeAt_keep hkeep _ _ hnodes, ?_, ?_, hfresh, ?_, ?_, ?_⟩
    · simp [getFlatElementList, getW, hw, hcache, hrun, hsel]
    · intro l hl
      rw [hcache] at hl
      simp at hl
    · intro l hl
      exact (hsame l hl).1
    · intro r hr hle
      exact hfresh r (hsub.subset hr) hle
    · intro r hr hrd
      rw [getElem_setFlatElementList_ne _ _ hrd]
      exact holdA r hr hrd
    · intro hnone
      obtain ⟨L, hL, hLge⟩ := hhead hnone
      exact ⟨L, hL, hL ▸ hsub, hLge⟩

/-- The call `Text(true)` returns and leaves the store that the caching call of
`getFlatNodeList` leaves. -/
theorem Text_full_returns {h : Heap} {p : Ptr} {k : Forest} {ws : Store} {d : Ref}
    {fuel : Nat} {L : List Ref} {ws1 : Store} (ht : treeAt h p k = true)
    (hrun : getFlatNodeList h fuel true d ws = Except.ok (L, ws1))
    (hnodes : L.map (nodeAt ws1) = (p :: k.preorder).map (fun a => some (some a))) :
    ∃ s, Text h fuel d true ws = Except.ok (s, ws1) := by
  have hin := treeAt_mem ht
  have hsel : ∀ r ∈ L, tagIs h ws1 "text" r =
      Except.ok (decide (TagName h ws1 r = Except.ok "text")) := by
    intro r hr
    obtain ⟨s, hs1⟩ := (queries_ok hnodes hin r hr).2.1
    simp [tagIs, hs1]
  have hwr : ∀ r ∈ L.filter (fun r => decide (TagName h ws1 r = Except.ok "text")),
      ∃ nd, nodeOf h ws1 r = Except.ok nd := by
    intro r hr
    obtain ⟨a, ha, hra⟩ := nodeAt_of_mem _ _ hnodes r (List.mem_of_mem_filter hr)
    obtain ⟨nd, hnd⟩ := hin a ha
    exact ⟨nd, nodeOf_of hra hnd⟩
  obtain ⟨s, hs⟩ := writeLoop_ok _ "" hwr
  refine ⟨TrimSpace s, ?_⟩
  simp only [Text, Bool.not_true, Bool.false_eq_true, if_false, hrun,
    selectLoop_filter _ _ L [] hsel, List.nil_append, hs]

/-! ## Memoization -/

/-- The three searches on a store in which `getFlatElementList` returns `E`
and leaves `ws1`, the entries of `E` wrapping heap nodes. -/
theorem searches_from_list {h : Heap} {ws ws1 : Store} {d : Ref} {fuel : Nat}
    {E : List Ref} {addrs : List Ptr}
    (hrun : getFlatElementList h fuel true d ws = Except.ok (E, ws1))
    (hE : E.map (nodeAt ws1) = addrs.map (fun a => some (some a)))
    (hin : ∀ a ∈ addrs, ∃ nd, h[a]? = some nd) :
    (∀ tag, GetElementsByTagName h fuel d tag ws =
      Except.ok (E.filter (fun r => decide (TagName h ws1 r = Except.ok tag)), ws1)) ∧
    (∀ cls, GetElementsByClassName h fuel d cls ws =
      Except.ok (E.filter (fun r =>
        match ClassList h ws1 r with
        | Except.ok l => decide (cls ∈ l)
        | Except.error _ => false), ws1)) ∧
    (∀ id, GetElementById h fuel d id ws =
      Except.ok (E.find? (fun r => decide (Id h ws1 r = Except.ok id)), ws1)) := by
  refine ⟨?_, ?_, ?_⟩
  · intro tag
    have hsel : ∀ r ∈ E, tagIs h ws1 tag r =
        Except.ok (decide (TagName h ws1 r = Except.ok tag)) := by
      intro r hr
      obtain ⟨s, hs1⟩ := (queries_ok hE hin r hr).2.1
      simp [tagIs, hs1]
    simp [GetElementsByTagName, hrun, selectLoop_filter _ _ E [] hsel]
  · intro cls
    have hsel : ∀ r ∈ E, classIn h ws1 cls r =
        Except.ok (match ClassList h ws1 r with
          | Except.ok l => decide (cls ∈ l)
          | Except.error _ => false) := by
      intro r hr
      obtain ⟨l, hl⟩ := (queries_ok hE hin r hr).2.2
      simp [classIn, hl]
    simp [GetElementsByClassName, hrun, selectLoop_filter _ _ E [] hsel]
  · intro id
    have hok : ∀ r ∈ E, ∃ s, Id h ws1 r = Except.ok s :=
      fun r hr => (queries_ok hE hin r hr).1
    simp [GetElementById, hrun, findIdLoop_find id E hok]

/-- C18: on every wrapper of a node of a well-formed tree whose caches are as
the methods leave them (sound, the element cache set only with the node
cache: fresh, after `Text(true)`, or after a search), a search leaves both
caches of the receiver set; a cache that was already set is not written: it
holds the same list afterwards, and when the element cache was set the store
is unchanged; a second call of the same search, with any fuel, returns the
same sequence and leaves the store as the first call left it; the invariant
holds again afterwards. -/
theorem searches_memoized (h : Heap) (ws : Store) (d : Ref) (p : Ptr) (k : Forest)
    (fuel : Nat) (ht : treeAt h p k = true) (hs : cachesSound h ws d p k = true)
    (ho : cachesOrdered ws d = true) (hf : k.size + 1 ≤ fuel) :
    ∃ E Ln ws1 w, ws[d]? = some w ∧
      getFlatElementList h fuel true d ws = Except.ok (E, ws1) ∧
      ws1[d]? = some ⟨some p, some E, some Ln⟩ ∧
      (∀ l, w.flatElementList = some l → E = l ∧ ws1 = ws) ∧
      (∀ l, w.flatNodeList = some l → Ln = l) ∧
      (∀ tag fuel2, ∃ res, GetElementsByTagName h fuel d tag ws = Except.ok (res, ws1) ∧
        GetElementsByTagName h fuel2 d tag ws1 = Except.ok (res, ws1)) ∧
      (∀ cls fuel2, ∃ res, GetElementsByClassName h fuel d cls ws = Except.ok (res, ws1) ∧
        GetElementsByClassName h fuel2 d cls ws1 = Except.ok (res, ws1)) ∧
      (∀ id fuel2, ∃ res, GetElementById h fuel d id ws = Except.ok (res, ws1) ∧
        GetElementById h fuel2 d id ws1 = Except.ok (res, ws1)) ∧
      (∀ (ws2 : Store) (w2 : DOM) (E2 : List Ref) (fuel2 : Nat) (sc : Bool),
        ws2[d]? = some w2 → w2.flatElementList = some E2 →
        getFlatElementList h fuel2 sc d ws2 = Except.ok (E2, ws2)) ∧
      (∀ (ws2 : Store) (w2 : DOM) (L2 : List Ref) (fuel2 : Nat) (sc : Bool),
        ws2[d]? = some w2 → w2.flatNodeList = some L2 →
        getFlatNodeList h (fuel2 + 1) sc d ws2 = Except.ok (L2, ws2)) ∧
      cachesSound h ws1 d p k = true ∧ cachesOrdered ws1 d = true := by
  obtain ⟨E, Ln, ws1, w, hw, hrun, hd1, hE, hLn, hsameE, hsameL, _, _, _, _⟩ :=
    getFlatElementList_state ht hs ho hf
  have hin : ∀ a ∈ (p :: k.preorder).filter (isElem h), ∃ nd, h[a]? = some nd :=
    fun a ha => treeAt_mem ht a (List.mem_of_mem_filter ha)
  obtain ⟨a1, a2, a3⟩ := searches_from_list hrun hE hin
  have hagain : ∀ fuel2, getFlatElementList h fuel2 true d ws1 = Except.ok (E, ws1) :=
    fun fuel2 => getFlatElementList_cached h fuel2 true hd1 rfl
  refine ⟨E, Ln, ws1, w, hw, hrun, hd1, hsameE, hsameL, ?_, ?_, ?_, ?_, ?_, ?_, ?_⟩
  · intro tag fuel2
    exact ⟨_, a1 tag, (searches_from_list (hagain fuel2) hE hin).1 tag⟩
  · intro cls fuel2
    exact ⟨_, a2 cls, (searches_from_list (hagain fuel2) hE hin).2.1 cls⟩
  · intro id fuel2
    exact ⟨_, a3 id, (searches_from_list (hagain fuel2) hE hin).2.2 id⟩
  · intro ws2 w2 E2 fuel2 sc hw2 hc
    exact getFlatElementList_cached h fuel2 sc hw2 hc
  · intro ws2 w2 L2 fuel2 sc hw2 hc
    exact getFlatNodeList_cached h fuel2 sc hw2 hc
  · refine cachesSound_iff.mpr ⟨_, hd1, rfl, ?_, ?_⟩
    · intro l hl
      simp only [Option.some.injEq] at hl
      exact hl ▸ hLn
    · intro l hl
      simp only [Option.some.injEq] at hl
      exact hl ▸ hE
  · exact (cachesOrdered_iff hd1).mpr (Or.inr ⟨Ln, rfl⟩)

/-- Witness of C18 on the wrapper of the `div` of the sample document in the
store that `Text(true)` has left: its node cache is set, its element cache is
not; the search fills the element cache and keeps the node cache. -/
theorem searches_memoized_witness :
    (Text sampleHeap 3 0 true (storeOf 5)).map Prod.snd = Except.ok storeAfterText ∧
    treeAt sampleHeap 5 sampleDivKids = true ∧
    cachesSound sampleHeap storeAfterText 0 5 sampleDivKids = true ∧
    cachesOrdered storeAfterText 0 = true ∧
    ∃ E Ln ws1 w, storeAfterText[0]? = some w ∧
      getFlatElementList sampleHeap 3 true 0 storeAfterText = Except.ok (E, ws1) ∧
      ws1[0]? = some ⟨some 5, some E, some Ln⟩ ∧
      (∀ l, w.flatElementList = some l → E = l ∧ ws1 = storeAfterText) ∧
      (∀ l, w.flatNodeList = some l → Ln = l) ∧
      (∀ tag fuel2, ∃ res,
        GetElementsByTagName sampleHeap 3 0 tag storeAfterText = Except.ok (res, ws1) ∧
        GetElementsByTagName sampleHeap fuel2 0 tag ws1 = Except.ok (res, ws1)) :=
  match searches_memoized sampleHeap storeAfterText 0 5 sampleDivKids 3
    (by decide) (by decide) (by decide) (by decide) with
  | ⟨E, Ln, ws1, w, h1, h2, h3, h4, h5, h6, _⟩ =>
    ⟨by decide, by decide, by decide, by decide, E, Ln, ws1, w, h1, h2, h3, h4, h5, h6⟩

/-- C20 (the claim fails as stated): after `Text(true)` on a fresh wrapper of
the `div` of the sample document the node cache of the wrapper is set, but
its element cache is still unset. -/
theorem Text_full_leaves_element_cache_unset :
    (Text sampleHeap 3 0 true (storeOf 5)).map (fun r => r.2[0]?) =
      Except.ok (some ⟨some 5, none, some [0, 1, 2]⟩) := by
  decide

/-- C20 (amended): on every wrapper of a node of a well-formed tree whose
caches are as the methods leave them, each of the three searches leaves both
caches of the receiver set, and `Text(true)` leaves its node cache set and its
element cache as it was before the call; in both cases every wrapper the call
created for the descent has both caches unset (when the node cache was unset
before the call these are all entries of the flattened lists other than the
receiver), and every other wrapper of the store is as it was. -/
theorem cache_population_confined (h : Heap) (ws : Store) (d : Ref) (p : Ptr)
    (k : Forest) (fuel : Nat) (ht : treeAt h p k = true)
    (hs : cachesSound h ws d p k = true) (ho : cachesOrdered ws d = true)
    (hf : k.size + 1 ≤ fuel) :
    (∃ E Ln ws1 w, ws[d]? = some w ∧
      getFlatElementList h fuel true d ws = Except.ok (E, ws1) ∧
      (∀ tag, ∃ res, GetElementsByTagName h fuel d tag ws = Except.ok (res, ws1)) ∧
      (∀ cls, ∃ res, GetElementsByClassName h fuel d cls ws = Except.ok (res, ws1)) ∧
      (∀ id, ∃ res, GetElementById h fuel d id ws = Except.ok (res, ws1)) ∧
      ws1[d]? = some ⟨some p, some E, some Ln⟩ ∧
      (∀ r ∈ Ln, ws.length ≤ r → ∃ a, ws1[r]? = some ⟨some a, none, none⟩) ∧
      (∀ r ∈ E, ws.length ≤ r → ∃ a, ws1[r]? = some ⟨some a, none, none⟩) ∧
      (∀ r, r < ws.length → r ≠ d → ws1[r]? = ws[r]?) ∧
      (w.flatNodeList = none → ∃ L, Ln = d :: L ∧ E.Sublist (d :: L) ∧
        ∀ r ∈ L, r ≠ d ∧ ∃ a, ws1[r]? = some ⟨some a, none, none⟩)) ∧
    (∃ s Ln ws1 w, ws[d]? = some w ∧
      Text h fuel d true ws = Except.ok (s, ws1) ∧
      getFlatNodeList h fuel true d ws = Except.ok (Ln, ws1) ∧
      ws1[d]? = some ⟨some p, w.flatElementList, some Ln⟩ ∧
      (∀ r ∈ Ln, ws.length ≤ r → ∃ a, ws1[r]? = some ⟨some a, none, none⟩) ∧
      (∀ r, r < ws.length → r ≠ d → ws1[r]? = ws[r]?) ∧
      (w.flatNodeList = none → ∃ L, Ln = d :: L ∧
        ∀ r ∈ L, r ≠ d ∧ ∃ a, ws1[r]? = some ⟨some a, none, none⟩)) := by
  constructor
  · obtain ⟨E, Ln, ws1, w, hw, hrun, hd1, hE, _, _, _, hfreshL, hfreshE, hold, hhead⟩ :=
      getFlatElementList_state ht hs ho hf
    have hin : ∀ a ∈ (p :: k.preorder).filter (isElem h), ∃ nd, h[a]? = some nd :=
      fun a ha => treeAt_mem ht a (List.mem_of_mem_filter ha)
    obtain ⟨a1, a2, a3⟩ := searches_from_list hrun hE hin
    refine ⟨E, Ln, ws1, w, hw, hrun, fun tag => ⟨_, a1 tag⟩, fun cls => ⟨_, a2 cls⟩,
      fun id => ⟨_, a3 id⟩, hd1, hfreshL, hfreshE, hold, ?_⟩
    intro hnone
    obtain ⟨L, hL, hsub, hge⟩ := hhead hnone
    refine ⟨L, hL, hsub, ?_⟩
    intro r hr
    exact ⟨(hge r hr).2, hfreshL r (hL ▸ List.mem_cons_of_mem d hr) (hge r hr).1⟩
  · obtain ⟨Ln, ws1, w, hw, hrun, hd1, hnodes, _, hfresh, hold, hhead⟩ :=
      getFlatNodeList_state ht hs hf
    obtain ⟨s, hs1⟩ := Text_full_returns ht hrun hnodes
    refine ⟨s, Ln, ws1, w, hw, hs1, hrun, hd1, hfresh, hold, ?_⟩
    intro hnone
    obtain ⟨L, hL, hge⟩ := hhead hnone
    refine ⟨L, hL, ?_⟩
    intro r hr
    exact ⟨(hge r hr).2, hfresh r (hL ▸ List.mem_cons_of_mem d hr) (hge r hr).1⟩

/-- Witness of the amended C20: a search on the wrapper of the `div` of the
sample document in the store that `Text(true)` has left (node cache set,
element cache unset) leaves both caches set; and `Text(true)` on a fresh
wrapper of the document node sets the node cache only, the wrappers created
for the descent keeping both caches unset. -/
theorem cache_population_confined_witness :
    (treeAt sampleHeap 5 sampleDivKids = true ∧
      cachesSound sampleHeap storeAfterText 0 5 sampleDivKids = true ∧
      cachesOrdered storeAfterText 0 = true ∧
      ∃ E Ln ws1 w, storeAfterText[0]? = some w ∧
        getFlatElementList sampleHeap 3 true 0 storeAfterText = Except.ok (E, ws1) ∧
        (∀ tag, ∃ res,
          GetElementsByTagName sampleHeap 3 0 tag storeAfterText = Except.ok (res, ws1)) ∧
        (∀ cls, ∃ res,
          GetElementsByClassName sampleHeap 3 0 cls storeAfterText = Except.ok (res, ws1)) ∧
        (∀ id, ∃ res,
          GetElementById sampleHeap 3 0 id storeAfterText = Except.ok (res, ws1)) ∧
        ws1[0]? = some ⟨some 5, some E, some Ln⟩) ∧
    (treeAt sampleHeap 0 sampleDocKids = true ∧
      cachesSound sampleHeap (storeOf 0) 0 0 sampleDocKids = true ∧
      cachesOrdered (storeOf 0) 0 = true ∧
      ∃ s Ln ws1 w, (storeOf 0)[0]? = some w ∧
        Text sampleHeap 9 0 true (storeOf 0) = Except.ok (s, ws1) ∧
        getFlatNodeList sampleHeap 9 true 0 (storeOf 0) = Except.ok (Ln, ws1) ∧
        ws1[0]? = some ⟨some 0, w.flatElementList, some Ln⟩ ∧
        (∀ r ∈ Ln, (storeOf 0).length ≤ r → ∃ a, ws1[r]? = some ⟨some a, none, none⟩) ∧
        (∀ r, r < (storeOf 0).length → r ≠ 0 → ws1[r]? = (storeOf 0)[r]?) ∧
        (w.flatNodeList = none → ∃ L, Ln = 0 :: L ∧
          ∀ r ∈ L, r ≠ 0 ∧ ∃ a, ws1[r]? = some ⟨some a, none, none⟩)) :=
  ⟨⟨by decide, by decide, by decide,
      match (cache_population_confined sampleHeap storeAfterText 0 5 sampleDivKids 3
        (by decide) (by decide) (by decide) (by decide)).1 with
      | ⟨E, Ln, ws1, w, h1, h2, h3, h4, h5, h6, _⟩ =>
        ⟨E, Ln, ws1, w, h1, h2, h3, h4, h5, h6⟩⟩,
    ⟨by decide, by decide, by decide,
      (cache_population_confined sampleHeap (storeOf 0) 0 0 sampleDocKids 9
        (by decide) (by decide) (by decide) (by decide)).2⟩⟩

/-! ## The receiver among the results -/

/-- On a wrapper with unset caches of an element node, the flattened element
list starts with the receiver. -/
theorem element_list_head {h : Heap} {p : Ptr} {k : Forest} {ws : Store} {d : Ref}
    {fuel : Nat} (ht : treeAt h p k = true) (hw : ws[d]? = some ⟨some p, none, none⟩)
    (hf : k.size + 1 ≤ fuel) (he : isElem h p = true) :
    ∃ E1 L ws1, getFlatElementList h fuel true d ws = Except.ok (d :: E1, ws1) ∧
      ws1[d]? = some ⟨some p, some (d :: E1), some (d :: L)⟩ ∧
      nodeAt ws1 d = some (some p) ∧
      (d :: E1).map (nodeAt ws1) =
        ((p :: k.preorder).filter (isElem h)).map (fun a => some (some a)) := by
  obtain ⟨E, L, ws1, hrun, hd1, hsub, hcells, _, _, _, hE⟩ := getFlatElementList_cells ht hw hf
  obtain ⟨_, _, hnd⟩ := treeAt_unfold ht
  have hpk : p ∉ k.preorder := (List.nodup_cons.mp hnd).1
  have hdp : nodeAt ws1 d = some (some p) := nodeAt_some_iff.mpr ⟨_, hd1, rfl⟩
  rw [List.filter_cons, he] at hE
  simp only [if_true, List.map_cons] at hE
  cases E with
  | nil => simp at hE
  | cons e0 E1 =>
    simp only [List.map_cons, List.cons.injEq] at hE
    have he0 : e0 = d := by
      cases hsub with
      | cons _ hsubL =>
        have hmem : e0 ∈ L := hsubL.subset (List.mem_cons_self e0 E1)
        obtain ⟨a, ha, hra⟩ := hcells e0 hmem
        have hna : nodeAt ws1 e0 = some (some a) := nodeAt_some_iff.mpr ⟨_, hra, rfl⟩
        rw [hE.1] at hna
        have hpa : p = a := by simpa using hna
        exact absurd (hpa ▸ ha) hpk
      | cons₂ _ _ => rfl
    subst he0
    refine ⟨E1, L, ws1, hrun, hd1, hdp, ?_⟩
    rw [List.filter_cons, he]
    simp only [if_true, List.map_cons, List.cons.injEq]
    exact hE

/-- The attribute queries read the node only. -/
theorem Id_of_nodeOf {h : Heap} {ws ws1 : Store} {d e : Ref}
    (hn : nodeOf h ws d = nodeOf h ws1 e) : Id h ws d = Id h ws1 e := by
  simp [Id, getAttribute, Attributes, hn]

theorem TagName_of_nodeOf {h : Heap} {ws ws1 : Store} {d e : Ref}
    (hn : nodeOf h ws d = nodeOf h ws1 e) : TagName h ws d = TagName h ws1 e := by
  simp [TagName, hn]

/-- C21: on a wrapper with unset caches of an element node of a well-formed
tree, the flattened element list starts with the receiver itself; so
`GetElementsByTagName` called with the tag name of the receiver returns a list
starting with the receiver, and `GetElementById` called with the id of the
receiver returns the receiver, also when it has no `id` attribute and its id
is the empty string; a second call of either returns the same. -/
theorem searches_include_receiver (h : Heap) (ws : Store) (d : Ref) (p : Ptr)
    (k : Forest) (fuel : Nat) (ht : treeAt h p k = true)
    (hw : ws[d]? = some ⟨some p, none, none⟩) (hf : k.size + 1 ≤ fuel)
    (he : isElem h p = true) :
    ∃ E1 ws1 tag id rest,
      getFlatElementList h fuel true d ws = Except.ok (d :: E1, ws1) ∧
      TagName h ws d = Except.ok tag ∧ Id h ws d = Except.ok id ∧
      GetElementsByTagName h fuel d tag ws = Except.ok (d :: rest, ws1) ∧
      GetElementById h fuel d id ws = Except.ok (some d, ws1) ∧
      GetElementsByTagName h fuel d tag ws1 = Except.ok (d :: rest, ws1) ∧
      GetElementById h fuel d id ws1 = Except.ok (some d, ws1) ∧
      ((∀ nd, h[p]? = some nd → ∀ a ∈ nd.Attr, a.Key ≠ "id") → id = "") := by
  obtain ⟨E1, L, ws1, hrun, hd1, hdp, hE⟩ := element_list_head ht hw hf he
  have hd0 : nodeAt ws d = some (some p) := nodeAt_some_iff.mpr ⟨_, hw, rfl⟩
  obtain ⟨nd, hp⟩ := treeAt_mem ht p (List.mem_cons_self p _)
  have hnode : nodeOf h ws d = nodeOf h ws1 d := by
    rw [nodeOf_of hd0 hp, nodeOf_of hdp hp]
  have hin : ∀ a ∈ (p :: k.preorder).filter (isElem h), ∃ nd, h[a]? = some nd :=
    fun a ha => treeAt_mem ht a (List.mem_of_mem_filter ha)
  obtain ⟨id, hid⟩ := getAttribute_ok (nodeOf_of hd0 hp) "id"
  have hid0 : Id h ws d = Except.ok id := hid
  have hid1 : Id h ws1 d = Except.ok id := by rw [← Id_of_nodeOf hnode]; exact hid0
  have htag1 : TagName h ws1 d = Except.ok (dataAt h p) := TagName_element hdp he
  have htag0 : TagName h ws d = Except.ok (dataAt h p) := by
    rw [TagName_of_nodeOf hnode]; exact htag1
  have hagain : getFlatElementList h fuel true d ws1 = Except.ok (d :: E1, ws1) :=
    getFlatElementList_cached h fuel true hd1 rfl
  obtain ⟨a1, _, a3⟩ := searches_from_list hrun hE hin
  obtain ⟨b1, _, b3⟩ := searches_from_list hagain hE hin
  have hfilter : (d :: E1).filter
      (fun r => decide (TagName h ws1 r = Except.ok (dataAt h p))) =
      d :: E1.filter (fun r => decide (TagName h ws1 r = Except.ok (dataAt h p))) := by
    rw [List.filter_cons]
    simp [htag1]
  have hfind : (d :: E1).find? (fun r => decide (Id h ws1 r = Except.ok id)) = some d := by
    rw [List.find?_cons]
    simp [hid1]
  refine ⟨E1, ws1, dataAt h p, id,
    E1.filter (fun r => decide (TagName h ws1 r = Except.ok (dataAt h p))),
    hrun, htag0, hid0, ?_, ?_, ?_, ?_, ?_⟩
  · rw [a1 (dataAt h p), hfilter]
  · rw [a3 id, hfind]
  · rw [b1 (dataAt h p), hfilter]
  · rw [b3 id, hfind]
  · intro hno
    have h1 := getAttribute_missing hd0 hp "id" (hno nd hp)
    rw [hid] at h1
    exact Except.ok.inj h1

/-- Witness of C21 on the `html` element of the sample document, which has no
`id` attribute. -/
theorem searches_include_receiver_witness :
    treeAt sampleHeap 1
      (Forest.cons 2 Forest.nil (Forest.cons 3 sampleBodyKids Forest.nil)) = true ∧
    (storeOf 1)[0]? = some ⟨some 1, none, none⟩ ∧ isElem sampleHeap 1 = true ∧
    ∃ E1 ws1 tag id rest,
      getFlatElementList sampleHeap 8 true 0 (storeOf 1) = Except.ok (0 :: E1, ws1) ∧
      TagName sampleHeap (storeOf 1) 0 = Except.ok tag ∧
      Id sampleHeap (storeOf 1) 0 = Except.ok id ∧
      GetElementsByTagName sampleHeap 8 0 tag (storeOf 1) = Except.ok (0 :: rest, ws1) ∧
      GetElementById sampleHeap 8 0 id (storeOf 1) = Except.ok (some 0, ws1) ∧
      GetElementsByTagName sampleHeap 8 0 tag ws1 = Except.ok (0 :: rest, ws1) ∧
      GetElementById sampleHeap 8 0 id ws1 = Except.ok (some 0, ws1) ∧
      ((∀ nd, sampleHeap[1]? = some nd → ∀ a ∈ nd.Attr, a.Key ≠ "id") → id = "") :=
  ⟨by decide, by decide, by decide,
    searches_include_receiver sampleHeap (storeOf 1) 0 1
      (Forest.cons 2 Forest.nil (Forest.cons 3 sampleBodyKids Forest.nil)) 8
      (by decide) (by decide) (by decide) (by decide)⟩

end GoDOM
